import Mathlib

/-!
# pangram.c : pangrammatic heterogram search

A shallow embedding of `pangram_heterogram` (src/pangram.c) and theorems about it.

* C strings are lists of byte values (`List Nat`); the dictionary file is the
  list of bytes read by `fread`, and every scan stops at the first NUL.
* `int` masks are natural numbers below `2 ^ 26`; `|` and `&` are `|||` and `&&&`.
* The per-level arrays `level_*[NUM_LETTERS]` are functions of the level index
  with no bound on the index: an access at index 26, which the C arrays do not
  have, is modelled like any other. `level_dict[i]` together with
  `level_dict_length[i]` is a list, and `mask_completed_length` is a function
  of the mask.
* The main loop is a step function on the loop variables; it is iterated with
  fuel, and the theorems on complete runs show that `2 ^ (n + 1)` iterations
  reach the `break` for a level-0 list of `n` masks.
* `printf` of a sentence is modelled by the list of bytes it writes; the
  progress and timing lines are left out.
* `qsort` and `tolower` are library routines, modelled by their contracts.
-/

namespace Pangram

/-! ## Constants -/

/-- `NUM_LETTERS` (line 29). -/
def NUM_LETTERS : Nat := 26

/-- `ALL_LETTERS_MASK` (line 30): `(1 << 26) - 1`. -/
def ALL_LETTERS_MASK : Nat := (1 <<< 26) - 1

/-! ## Word normalizer (lines 78-169) -/

/-- A word of the word list: the bytes of `word_list[i]` and `word_mask[i]`. -/
structure Word where
  text : List Nat
  mask : Nat
deriving DecidableEq, Repr

/-- The C string that starts at a pointer: the bytes before the first NUL. -/
def cstr (bytes : List Nat) : List Nat := bytes.takeWhile (fun c => c != 0)

/-- Inner `while(1)` of the splitting loop (lines 98-113), started inside a
line: returns the bytes of the word being scanned and what follows the line.
A `'\r'` is overwritten with NUL, which ends the C string of the word although
the scan goes on to the `'\n'`; `live` is false once that has happened. -/
def scanLine : List Nat → Bool → List Nat × List Nat
  | [], _ => ([], [])
  | c :: rest, live =>
    if c = 13 then scanLine rest false
    else if c = 10 then ([], rest)
    else
      let r := scanLine rest live
      (if live then c :: r.1 else r.1, r.2)

/-- Outer `for` of the splitting loop (lines 92-114) on the bytes before the
first NUL, with `fuel` at least the number of bytes: one word per
iteration. -/
def splitWordsAux : Nat → List Nat → List (List Nat)
  | 0, _ => []
  | _, [] => []
  | fuel + 1, c :: rest =>
    let r := scanLine (c :: rest) true
    r.1 :: splitWordsAux fuel r.2

/-- The words `word_list[0 .. num_words)` after the splitting loop. -/
def splitWords (data : List Nat) : List (List Nat) :=
  splitWordsAux (cstr data).length (cstr data)

/-- `strcmp(a, b) <= 0` on C strings: bytes compared as unsigned values, a
proper prefix is smaller. -/
def strcmpLe : List Nat → List Nat → Bool
  | [], _ => true
  | _ :: _, [] => false
  | a :: as, b :: bs => if a < b then true else if b < a then false else strcmpLe as bs

/-- `strcmp(a, b) == 0`. -/
def strcmpEq (a b : List Nat) : Bool := decide (a = b)

/-- Insertion of one string into a list sorted by `strcmp`. -/
def insertWord (w : List Nat) : List (List Nat) → List (List Nat)
  | [] => [w]
  | x :: xs => if strcmpLe w x then w :: x :: xs else x :: insertWord w xs

/-- `qsort(word_list, num_words, sizeof(char*), qsort_strcmp)` (line 117): the
library routine is modelled by its contract, the permutation sorted by
`strcmp`. Strings that compare equal are equal, so the result does not depend
on the sorting algorithm. -/
def qsortWords : List (List Nat) → List (List Nat)
  | [] => []
  | w :: ws => insertWord w (qsortWords ws)

/-- `tolower` in the C locale. -/
def tolower (c : Nat) : Nat := if 65 ≤ c ∧ c ≤ 90 then c + 32 else c

/-- The `while (word_list[iWord][i])` loop (lines 132-148) from the current
character on, with the mask accumulated so far: returns the text as it is left
in memory and the final mask. On a repeated letter the mask becomes 0 and the
loop breaks, leaving the rest of the word as it was. -/
def maskLoop : List Nat → Nat → List Nat × Nat
  | [], mask => ([], mask)
  | ch :: rest, mask =>
    let c := tolower ch
    if 97 ≤ c ∧ c ≤ 122 then
      let bit := 1 <<< (c - 97)
      if mask &&& bit ≠ 0 then (c :: rest, 0)
      else
        let r := maskLoop rest (mask ||| bit)
        (c :: r.1, r.2)
    else
      let r := maskLoop rest mask
      (c :: r.1, r.2)

/-- Body of the `for iWord` loop (lines 126-151) for one word. -/
def wordOf (w : List Nat) : Word :=
  let r := maskLoop w 0
  { text := r.1, mask := r.2 }

/-- The compaction loop (lines 156-168); `kept` holds the entries
`[0, iWord)` already written, last one first. -/
def compactLoop : List Word → List Word → List Word
  | [], kept => kept.reverse
  | w :: ws, kept =>
    if w.mask = 0 then compactLoop ws kept
    else
      match kept with
      | [] => compactLoop ws [w]
      | p :: ps =>
        if w.mask = p.mask ∧ strcmpEq w.text p.text then compactLoop ws (p :: ps)
        else compactLoop ws (w :: p :: ps)

/-- The word list (`word_list`, `word_mask`, `num_words`) after line 169. -/
def wordList (data : List Nat) : List Word :=
  compactLoop ((qsortWords (splitWords data)).map wordOf) []

/-! ## Anagram reducer (lines 182-197) -/

/-- The `for i` loop of lines 186-197; `dict` is `level_dict[0]` so far. -/
def anagramLoop : List Word → List Nat → List Nat
  | [], dict => dict
  | w :: ws, dict =>
    if w.mask ∈ dict then anagramLoop ws dict
    else anagramLoop ws (dict ++ [w.mask])

/-- The list `level_dict[0]` of length `level_dict_length[0]`. -/
def level0 (wl : List Word) : List Nat := anagramLoop wl []

/-! ## Search engine (lines 200-285) -/

/-- The array write `a[i] = v`. -/
def setAt {α : Type} (a : Nat → α) (i : Nat) (v : α) : Nat → α :=
  fun j => if j = i then v else a j

/-- The variables of the main loop. `level_dict i` is the buffer
`level_dict[i]` cut at `level_dict_length[i]`; `solutions` is the log of the
sentences printed so far, each as the masks
`level_dict[i][level_word_index[i]]`, `i < level`, read by the printing loop. -/
structure SearchState where
  level : Nat
  level_word_index : Nat → Int
  level_mask : Nat → Nat
  level_stop_index : Nat → Nat
  level_dict : Nat → List Nat
  mask_completed_length : Nat → Nat
  solutions : List (List Nat)

/-- Lines 200-205: the variables before the main loop, for the level-0 list.
The entries the C code leaves uninitialised are given a value here; the loop
writes each of them before it reads it. -/
def initState (dict0 : List Nat) : SearchState :=
  { level := 0
    level_word_index := fun _ => -1
    level_mask := fun _ => 0
    level_stop_index := fun _ => dict0.length
    level_dict := fun _ => dict0
    mask_completed_length := fun _ => 0
    solutions := [] }

/-- Lines 227-228: `for (i = 0; i < level; i++) mask_completed_length[level_mask[i]] = 0`. -/
def reopen (level_mask : Nat → Nat) (level : Nat) (memo : Nat → Nat) : Nat → Nat :=
  (List.range level).foldl (fun m i => setAt m (level_mask i) 0) memo

/-- The masks `level_dict[i][level_word_index[i]]` for `i < level` that the
printing loop (lines 231-250) reads. -/
def sentence (level_dict : Nat → List Nat) (level_word_index : Nat → Int) (level : Nat) :
    List Nat :=
  (List.range level).map (fun i => (level_dict i).getD (level_word_index i).toNat 0)

/-- Lines 263-268: the dict of the new level, from the previous level's dict
after its current index, keeping the masks that fit the sentence mask. -/
def childDict (parent : List Nat) (word_index : Int) (mask : Nat) : List Nat :=
  (parent.drop (word_index + 1).toNat).filter (fun m => mask &&& m = 0)

/-- One iteration of `while(1)` (lines 208-285); `none` is the `break`. -/
def step (s : SearchState) : Option SearchState :=
  let wi := s.level_word_index s.level + 1
  let word_index := setAt s.level_word_index s.level wi
  if wi ≥ (s.level_stop_index s.level : Int) then
    if s.level = 0 then none
    else some { s with level := s.level - 1, level_word_index := word_index }
  else
    let level := s.level + 1
    let mask := s.level_mask (level - 1) ||| (s.level_dict (level - 1)).getD wi.toNat 0
    let level_mask := setAt s.level_mask level mask
    let word_index := setAt word_index level (-1)
    if mask = ALL_LETTERS_MASK then
      some { s with
        level := level - 1
        level_word_index := word_index
        level_mask := level_mask
        mask_completed_length := reopen level_mask level s.mask_completed_length
        solutions := s.solutions ++ [sentence s.level_dict word_index level] }
    else
      let dict := childDict (s.level_dict (level - 1)) wi mask
      let level_dict := setAt s.level_dict level dict
      let prev := s.mask_completed_length mask
      if prev ≠ 0 then
        if prev ≥ dict.length then
          some { s with
            level := level - 1
            level_word_index := word_index
            level_mask := level_mask
            level_dict := level_dict
            level_stop_index := setAt s.level_stop_index level dict.length }
        else
          some { s with
            level := level
            level_word_index := word_index
            level_mask := level_mask
            level_dict := level_dict
            level_stop_index := setAt s.level_stop_index level (dict.length - prev)
            mask_completed_length := setAt s.mask_completed_length mask dict.length }
      else
        some { s with
          level := level
          level_word_index := word_index
          level_mask := level_mask
          level_dict := level_dict
          level_stop_index := setAt s.level_stop_index level dict.length
          mask_completed_length := setAt s.mask_completed_length mask dict.length }

/-- The state after at most `n` iterations of the main loop. -/
def runN : Nat → SearchState → SearchState
  | 0, s => s
  | n + 1, s =>
    match step s with
    | none => s
    | some t => runN n t

/-- The main loop run to its `break`: the final state, or `none` when `fuel`
iterations do not reach it. -/
def mainLoop : Nat → SearchState → Option SearchState
  | 0, _ => none
  | fuel + 1, s =>
    match step s with
    | none => some s
    | some t => mainLoop fuel t

/-- The sentences printed by a complete search of the level-0 list. -/
def search (fuel : Nat) (dict0 : List Nat) : Option (List (List Nat)) :=
  (mainLoop fuel (initState dict0)).map (fun s => s.solutions)

/-- The sentences printed during the first `n` iterations of the main loop. -/
def emitted (n : Nat) (dict0 : List Nat) : List (List Nat) :=
  (runN n (initState dict0)).solutions

/-! ## Solution renderer (lines 230-250) -/

/-- The inner `for iWord` loop (lines 235-249) for the mask of position `i`,
from the given words on, with `anagrams_found` as given: the bytes written
(`'|'` is 124, `' '` is 32). -/
def printGroup (i : Nat) (mask : Nat) : List Word → Nat → List Nat
  | [], _ => []
  | w :: ws, anagrams_found =>
    if w.mask = mask then
      (if anagrams_found ≠ 0 then [124] else if i ≠ 0 then [32] else []) ++ w.text ++
        printGroup i mask ws (anagrams_found + 1)
    else printGroup i mask ws anagrams_found

/-- The outer `for i` loop (lines 231-250) from position `i` on, over the masks
`level_dict[i][level_word_index[i]]` of the sentence. -/
def printFrom (wl : List Word) : Nat → List Nat → List Nat
  | _, [] => []
  | i, m :: ms => printGroup i m wl 0 ++ printFrom wl (i + 1) ms

/-- The bytes of the sentence printed for the masks `sol`. -/
def printSentence (wl : List Word) (sol : List Nat) : List Nat := printFrom wl 0 sol

/-! ## Reference enumerator and the search without the memo table -/

/-- Brute-force reference enumerator: the depth-first search in list order
without any memo table. From the sentence mask `S`, every word of the list that
fits is tried in turn; a sentence that covers the alphabet is a solution,
otherwise the search continues with the words after the chosen one. -/
def bruteForce (S : Nat) : List Nat → List (List Nat)
  | [] => []
  | m :: rest =>
    (if S &&& m = 0 then
      (if S ||| m = ALL_LETTERS_MASK then [[m]]
       else (bruteForce (S ||| m) rest).map (fun t => m :: t))
     else []) ++ bruteForce S rest

/-- One iteration of the main loop with the memo table removed: the loop of
lines 208-285 without the reopening of lines 225-228 and without the consult
and store of lines 271-284. This is the plain depth-first search in list order. -/
def stepNoMemo (s : SearchState) : Option SearchState :=
  let wi := s.level_word_index s.level + 1
  let word_index := setAt s.level_word_index s.level wi
  if wi ≥ (s.level_stop_index s.level : Int) then
    if s.level = 0 then none
    else some { s with level := s.level - 1, level_word_index := word_index }
  else
    let level := s.level + 1
    let mask := s.level_mask (level - 1) ||| (s.level_dict (level - 1)).getD wi.toNat 0
    let level_mask := setAt s.level_mask level mask
    let word_index := setAt word_index level (-1)
    if mask = ALL_LETTERS_MASK then
      some { s with
        level := level - 1
        level_word_index := word_index
        level_mask := level_mask
        solutions := s.solutions ++ [sentence s.level_dict word_index level] }
    else
      let dict := childDict (s.level_dict (level - 1)) wi mask
      some { s with
        level := level
        level_word_index := word_index
        level_mask := level_mask
        level_dict := setAt s.level_dict level dict
        level_stop_index := setAt s.level_stop_index level dict.length }

/-- The loop without the memo table run to its `break`, or `none` when `fuel`
iterations do not reach it. -/
def mainLoopNoMemo : Nat → SearchState → Option SearchState
  | 0, _ => none
  | fuel + 1, s =>
    match stepNoMemo s with
    | none => some s
    | some t => mainLoopNoMemo fuel t

/-- The sentences printed by a complete search without the memo table. -/
def searchNoMemo (fuel : Nat) (dict0 : List Nat) : Option (List (List Nat)) :=
  (mainLoopNoMemo fuel (initState dict0)).map (fun s => s.solutions)

/-! ## Vocabulary of the claims -/

/-- The bitwise OR of a list of masks. -/
def orAll (ms : List Nat) : Nat := ms.foldr (fun m acc => m ||| acc) 0

/-- Strict lexicographic order on tuples of positions. -/
def lexLt : List Nat → List Nat → Prop
  | [], [] => False
  | [], _ :: _ => True
  | _ :: _, [] => False
  | a :: as, b :: bs => a < b ∨ (a = b ∧ lexLt as bs)

/-- The position of a mask in the level-0 list. -/
def position (dict0 : List Nat) (m : Nat) : Nat := dict0.indexOf m

/-- The anagram group of a mask: the texts of the words of the word list with
that mask, in word-list order. -/
def anagrams (wl : List Word) (m : Nat) : List (List Nat) :=
  (wl.filter (fun w => w.mask = m)).map (fun w => w.text)

/-- The test `c >= 'a' && c <= 'z'` of line 137. -/
def isLetter (c : Nat) : Bool := decide (97 ≤ c ∧ c ≤ 122)

/-- The letters `a`-`z` of a word after lowercasing, in order of occurrence. -/
def letters (w : List Nat) : List Nat := (w.map tolower).filter isLetter

/-- The number of set bits of a letter mask (bits 0 to 25). -/
def popcount (m : Nat) : Nat := ((List.range 26).filter (fun i => m.testBit i)).length

/-! ## Specification devices for the search invariant -/

/-- The index of the top level after `level_word_index[level]++` (line 210). -/
def nextIndex (s : SearchState) : Int := s.level_word_index s.level + 1

/-- The word at that index, `level_dict[level - 1][level_word_index[level - 1]]`
of line 220. -/
def nextWord (s : SearchState) : Nat := (s.level_dict s.level).getD (nextIndex s).toNat 0

/-- The sentence mask of the new level (line 220). -/
def nextMask (s : SearchState) : Nat := s.level_mask s.level ||| nextWord s

/-- The dict of the new level (lines 263-268). -/
def nextDict (s : SearchState) : List Nat :=
  childDict (s.level_dict s.level) (nextIndex s) (nextMask s)

/-- The word `level_dict[i][level_word_index[i]]` chosen at level `i`. -/
def chosen (s : SearchState) (i : Nat) : Nat :=
  (s.level_dict i).getD (s.level_word_index i).toNat 0

/-- The solutions of level `i` whose first word comes after the current index
of that level (relative to the sentence mask of the level). -/
def later (s : SearchState) (i : Nat) : List (List Nat) :=
  bruteForce (s.level_mask i) ((s.level_dict i).drop (s.level_word_index i + 1).toNat)

/-- The list `X` of solutions still to come at level `i + d`, seen from level
`i`: going down one level puts the chosen word of that level in front and adds
the solutions of that level that come later. -/
def liftTo (s : SearchState) (i : Nat) : Nat → List (List Nat) → List (List Nat)
  | 0, X => X
  | d + 1, X => liftTo s i d (X.map (fun t => chosen s (i + d) :: t) ++ later s (i + d))

/-- The chosen words of the levels `i, ..., i + d - 1`. -/
def chosenFrom (s : SearchState) (i : Nat) : Nat → List Nat
  | 0 => []
  | d + 1 => chosenFrom s i d ++ [chosen s (i + d)]

/-- The last `n` entries of a list. -/
def lastN (n : Nat) (l : List Nat) : List Nat := l.drop (l.length - n)

/-- The invariant of the main loop for the level-0 list `l`. -/
structure Inv (l : List Nat) (s : SearchState) : Prop where
  mask0 : s.level_mask 0 = 0
  dict0 : s.level_dict 0 = l
  top : -1 ≤ s.level_word_index s.level
  chain : ∀ i, i < s.level →
    0 ≤ s.level_word_index i ∧ (s.level_word_index i).toNat < (s.level_dict i).length ∧
    s.level_mask (i + 1) = s.level_mask i ||| chosen s i ∧
    s.level_dict (i + 1) = childDict (s.level_dict i) (s.level_word_index i) (s.level_mask (i + 1))
  subs : ∀ i j, i ≤ j → j ≤ s.level → s.level_mask i ||| s.level_mask j = s.level_mask j
  suffix : ∀ i, i ≤ s.level →
    s.level_dict i <:+ l.filter (fun x => s.level_mask i &&& x = 0)
  trunc : ∀ i, i ≤ s.level →
    s.level_stop_index i ≤ (s.level_dict i).length ∧
    bruteForce (s.level_mask i) ((s.level_dict i).drop (s.level_stop_index i)) = []
  memoOn : ∀ i d, i + d = s.level → s.mask_completed_length (s.level_mask i) ≠ 0 →
    s.mask_completed_length (s.level_mask i) = (s.level_dict i).length ∧
    bruteForce (s.level_mask i) (s.level_dict i) = liftTo s i d (later s s.level)
  memoOff : ∀ T, (∀ i, i ≤ s.level → s.level_mask i ≠ T) → s.mask_completed_length T ≠ 0 →
    bruteForce T (lastN (s.mask_completed_length T) (l.filter (fun x => T &&& x = 0))) = []
  out : s.solutions ++ liftTo s 0 s.level (later s s.level) = bruteForce 0 l

/-- Two states with the same dict, index and mask at a level. -/
def SameAt (s t : SearchState) (j : Nat) : Prop :=
  s.level_dict j = t.level_dict j ∧ s.level_word_index j = t.level_word_index j ∧
  s.level_mask j = t.level_mask j

/-- The state `t` comes from `s` by the common part of the three branches that
look at the next word (lines 210 and 219-221): the index of the top level is
advanced, the sentence mask and the index of the next level are written, and
the dicts and stop indices of the levels of the stack are untouched. -/
structure Advanced (s t : SearchState) : Prop where
  index : t.level_word_index =
    setAt (setAt s.level_word_index s.level (nextIndex s)) (s.level + 1) (-1)
  mask : t.level_mask = setAt s.level_mask (s.level + 1) (nextMask s)
  dict : ∀ j, j ≤ s.level → t.level_dict j = s.level_dict j
  stop : ∀ j, j ≤ s.level → t.level_stop_index j = s.level_stop_index j

/-- Weight of a level with `r` words left, for the termination measure. -/
def weight (r : Nat) : Nat := 2 ^ (r + 1) - 1

/-- The number of words of the dict of level `j` after its current index. -/
def wordsLeft (s : SearchState) (j : Nat) : Nat :=
  (s.level_dict j).length - (s.level_word_index j + 1).toNat

/-- The weights of the levels below `n`. -/
def measureBelow (s : SearchState) : Nat → Nat
  | 0 => 0
  | n + 1 => measureBelow s n + weight (wordsLeft s n)

/-- Termination measure of the main loop: the weights of the levels of the stack. -/
def measure (s : SearchState) : Nat := measureBelow s (s.level + 1)

/-- The state with an all-zero memo table. -/
def clearMemo (s : SearchState) : SearchState :=
  { s with mask_completed_length := fun _ => 0 }

/-! ## Sample inputs -/

/-- The dictionary file of scenario S1: the lines `abcdefghijklm` and
`nopqrstuvwxyz`. -/
def dictS1 : List Nat :=
  [97, 98, 99, 100, 101, 102, 103, 104, 105, 106, 107, 108, 109, 10,
   110, 111, 112, 113, 114, 115, 116, 117, 118, 119, 120, 121, 122, 10]

/-- The dictionary file of scenario S2: the lines `abcdefghijklm`,
`mlkjihgfedcba` and `nopqrstuvwxyz`. -/
def dictS2 : List Nat :=
  [97, 98, 99, 100, 101, 102, 103, 104, 105, 106, 107, 108, 109, 10,
   109, 108, 107, 106, 105, 104, 103, 102, 101, 100, 99, 98, 97, 10,
   110, 111, 112, 113, 114, 115, 116, 117, 118, 119, 120, 121, 122, 10]

/-- A dictionary file with the lines `A`, `AB`, `C`, `D`, `bc`, `e` and
`fghijklmnopqrstuvwxyz`. -/
def dictAbc : List Nat :=
  [65, 10, 65, 66, 10, 67, 10, 68, 10, 98, 99, 10, 101, 10,
   102, 103, 104, 105, 106, 107, 108, 109, 110, 111, 112, 113, 114, 115, 116, 117, 118, 119,
   120, 121, 122, 10]

/-- The level-0 list of `dictAbc`, in which the sentence mask `abc` is reached
twice: the masks of `a`, `ab`, `c`, `d`, `bc`, `e` and `fghijklmnopqrstuvwxyz`. -/
def masksAbc : List Nat := [1, 3, 4, 8, 6, 16, 67108832]

/-- A dictionary file with the lines `Ab`, `B` and `ab`. -/
def dictMixedCase : List Nat := [65, 98, 10, 66, 10, 97, 98]

/-- A dictionary file with the lines `B` and `a`. -/
def dictUpperFirst : List Nat := [66, 10, 97]

/-- A dictionary file with the single line `a-b`. -/
def dictHyphen : List Nat := [97, 45, 98]

/-! ## The program (lines 37-318) -/

/-- The bytes of `"dictionary file not found\n"` (line 67). -/
def notFoundMessage : List Nat :=
  [100, 105, 99, 116, 105, 111, 110, 97, 114, 121, 32, 102, 105, 108, 101, 32,
   110, 111, 116, 32, 102, 111, 117, 110, 100, 10]

/-- `pangram_heterogram` (lines 37-297): what it prints, without the progress
and timing lines. `file` is what `fopen` and `fread` deliver: `none` when the
file cannot be opened, the bytes of the file otherwise. The result is `none`
when `fuel` iterations of the main loop do not reach its `break`. -/
def pangram_heterogram (file : Option (List Nat)) (fuel : Nat) : Option (List (List Nat)) :=
  match file with
  | none => some [notFoundMessage]
  | some data =>
    (search fuel (level0 (wordList data))).map
      (fun sols => sols.map (printSentence (wordList data)))

/-- `main` (lines 301-318): what is printed and the exit code. The choice of
the file name from `argv` is part of opening the file; `getchar()` is taken to
return. -/
def main (file : Option (List Nat)) (fuel : Nat) : Option (List (List Nat) × Int) :=
  (pangram_heterogram file fuel).map (fun printed => (printed, 0))

/-- The dictionary file of scenario S3: the lines `nopqrstuvwxyz` and
`abcdefghijklm`. -/
def dictS3 : List Nat :=
  [110, 111, 112, 113, 114, 115, 116, 117, 118, 119, 120, 121, 122, 10,
   97, 98, 99, 100, 101, 102, 103, 104, 105, 106, 107, 108, 109, 10]

/-! ## Vocabulary of the claims on the search state -/

/-- The state reached after `n` iterations of the main loop on a level-0 list. -/
def stateAfter (dict0 : List Nat) (n : Nat) : SearchState := runN n (initState dict0)

/-- The state after lines 210 and 219-221, when the index of the top level has
not reached its stop index: the index is advanced, `level` is increased, and
`level_mask[level]` and `level_word_index[level]` are written. -/
def enter (s : SearchState) : SearchState :=
  { s with
    level := s.level + 1
    level_word_index := setAt (setAt s.level_word_index s.level (nextIndex s)) (s.level + 1) (-1)
    level_mask := setAt s.level_mask (s.level + 1) (nextMask s) }

/-- The solution branch (lines 223-259) from the state after line 221. -/
def solutionBranch (s : SearchState) : SearchState :=
  { s with
    level := s.level - 1
    mask_completed_length := reopen s.level_mask s.level s.mask_completed_length
    solutions := s.solutions ++ [sentence s.level_dict s.level_word_index s.level] }

/-- The masks `t` extend the sentence mask `S` to a pangrammatic heterogram:
they are pairwise disjoint, disjoint from `S`, and with `S` they cover the
alphabet. -/
def Completes (S : Nat) (t : List Nat) : Prop :=
  t.Pairwise (fun a b => a &&& b = 0) ∧ (∀ x ∈ t, S &&& x = 0) ∧
  S ||| orAll t = ALL_LETTERS_MASK

/-- During the first `n` iterations on the level-0 list, the child dict `d` has
been built (lines 263-268) for the sentence mask `T`. -/
def Built (dict0 : List Nat) (n : Nat) (T : Nat) (d : List Nat) : Prop :=
  ∃ k, k < n ∧
    nextIndex (stateAfter dict0 k) <
      ((stateAfter dict0 k).level_stop_index (stateAfter dict0 k).level : Int) ∧
    nextMask (stateAfter dict0 k) ≠ ALL_LETTERS_MASK ∧
    nextMask (stateAfter dict0 k) = T ∧ nextDict (stateAfter dict0 k) = d

/-- The bounds of the indices on the stack that the termination argument needs. -/
structure Bounded (s : SearchState) : Prop where
  index : ∀ i, i ≤ s.level → -1 ≤ s.level_word_index i
  stop : ∀ i, i ≤ s.level → s.level_stop_index i ≤ (s.level_dict i).length

/-- A dictionary file with the 26 lines `a`, `b`, ..., `z`. -/
def dict26 : List Nat :=
  [97, 10, 98, 10, 99, 10, 100, 10, 101, 10, 102, 10, 103, 10, 104, 10, 105, 10, 106, 10,
   107, 10, 108, 10, 109, 10, 110, 10, 111, 10, 112, 10, 113, 10, 114, 10, 115, 10, 116, 10,
   117, 10, 118, 10, 119, 10, 120, 10, 121, 10, 122, 10]

/-- The level-0 list of `dict26`: the masks of the 26 letters. -/
def masks26 : List Nat :=
  [1, 2, 4, 8, 16, 32, 64, 128, 256, 512, 1024, 2048, 4096, 8192, 16384, 32768, 65536,
   131072, 262144, 524288, 1048576, 2097152, 4194304, 8388608, 16777216, 33554432]

/-- The texts of a word list written back as a dictionary file, one per line
in the same order. -/
def textLines (wl : List Word) : List Nat :=
  (wl.map (fun w => w.text ++ [10])).flatten

/-- No sentence mask on the stack is the full alphabet. -/
def NotFull (s : SearchState) : Prop :=
  ∀ i, i ≤ s.level → s.level_mask i ≠ ALL_LETTERS_MASK

/-! ## Theorems -/

/-! ### Bit masks -/

theorem or_eq_zero_left {a b : Nat} (h : a ||| b = 0) : a = 0 := by
  apply Nat.eq_of_testBit_eq
  intro i
  have := congrArg (fun n => n.testBit i) h
  simp only [Nat.testBit_or, Nat.zero_testBit, Bool.or_eq_false_iff] at this
  simp [this.1]

theorem or_eq_zero_right {a b : Nat} (h : a ||| b = 0) : b = 0 := by
  rw [Nat.lor_comm] at h
  exact or_eq_zero_left h

theorem or_and_eq_zero_iff (a b m : Nat) :
    (a ||| b) &&& m = 0 ↔ a &&& m = 0 ∧ b &&& m = 0 := by
  rw [Nat.and_comm (a ||| b) m, Nat.and_or_distrib_left, Nat.and_comm m a, Nat.and_comm m b]
  constructor
  · intro h
    exact ⟨or_eq_zero_left h, or_eq_zero_right h⟩
  · rintro ⟨h1, h2⟩
    rw [h1, h2]
    rfl

theorem or_ne_of_subset {a S m : Nat} (hsub : a ||| S = S) (hd : S &&& m = 0) (hm : m ≠ 0) :
    S ||| m ≠ a := by
  intro h
  obtain ⟨k, hk⟩ := Nat.ne_zero_implies_bit_true hm
  have h1 : a.testBit k = true := by
    rw [← h]
    simp [hk]
  have h2 : S.testBit k = true := by
    rw [← hsub]
    simp [h1]
  have h3 := congrArg (fun n => n.testBit k) hd
  simp [h2, hk] at h3

/-! ### The reference enumerator -/

theorem bruteForce_nil (S : Nat) : bruteForce S [] = [] := rfl

theorem bruteForce_cons_fit {S m : Nat} (rest : List Nat) (h : S &&& m = 0)
    (hne : S ||| m ≠ ALL_LETTERS_MASK) :
    bruteForce S (m :: rest) =
      (bruteForce (S ||| m) rest).map (fun t => m :: t) ++ bruteForce S rest := by
  simp [bruteForce, h, hne]

theorem bruteForce_cons_full {S m : Nat} (rest : List Nat) (h : S &&& m = 0)
    (hfull : S ||| m = ALL_LETTERS_MASK) :
    bruteForce S (m :: rest) = [m] :: bruteForce S rest := by
  simp [bruteForce, h, hfull]

theorem bruteForce_cons_unfit {S m : Nat} (rest : List Nat) (h : S &&& m ≠ 0) :
    bruteForce S (m :: rest) = bruteForce S rest := by
  simp [bruteForce, h]

/-- Words that clash with a subset of the sentence mask never contribute:
building the per-level dict by filtering does not change the solutions. -/
theorem bruteForce_filter (T : Nat) (l : List Nat) :
    ∀ U : Nat, (∀ x, T &&& x ≠ 0 → U &&& x ≠ 0) →
      bruteForce U (l.filter (fun x => T &&& x = 0)) = bruteForce U l := by
  induction l with
  | nil => intro U _; rfl
  | cons m rest ih =>
    intro U hU
    have hU' : ∀ x, T &&& x ≠ 0 → (U ||| m) &&& x ≠ 0 := by
      intro x hx hc
      exact hU x hx ((or_and_eq_zero_iff U m x).1 hc).1
    by_cases hT : T &&& m = 0
    · simp only [List.filter_cons, hT, decide_True, if_true, bruteForce]
      rw [ih U hU, ih (U ||| m) hU']
    · have hUm : U &&& m ≠ 0 := hU m hT
      simp only [List.filter_cons, hT, decide_False, Bool.false_eq_true, if_false]
      rw [bruteForce_cons_unfit rest hUm, ih U hU]

theorem bruteForce_tail_nil {S m : Nat} {rest : List Nat} (h : bruteForce S (m :: rest) = []) :
    bruteForce S rest = [] := by
  simp only [bruteForce, List.append_eq_nil] at h
  exact h.2

/-- Fewer words, fewer solutions: no solution from a list, none from its tails. -/
theorem bruteForce_drop_nil {S : Nat} (l : List Nat) (k : Nat) (h : bruteForce S l = []) :
    bruteForce S (l.drop k) = [] := by
  induction k generalizing l with
  | zero => simpa using h
  | succ k ih =>
    cases l with
    | nil => simp [bruteForce]
    | cons m rest =>
      simp only [List.drop_succ_cons]
      exact ih rest (bruteForce_tail_nil h)

/-! ### Arrays -/

theorem setAt_same {α : Type} (a : Nat → α) (i : Nat) (v : α) : setAt a i v i = v := by
  simp [setAt]

theorem setAt_ne {α : Type} (a : Nat → α) {i j : Nat} (v : α) (h : j ≠ i) :
    setAt a i v j = a j := by
  simp [setAt, h]

theorem reopen_succ (lm : Nat → Nat) (n : Nat) (memo : Nat → Nat) :
    reopen lm (n + 1) memo = setAt (reopen lm n memo) (lm n) 0 := by
  simp [reopen, List.range_succ, List.foldl_append]

theorem reopen_on (lm : Nat → Nat) (memo : Nat → Nat) (n i : Nat) (h : i < n) :
    reopen lm n memo (lm i) = 0 := by
  induction n with
  | zero => omega
  | succ n ih =>
    rw [reopen_succ]
    by_cases hi : lm i = lm n
    · rw [hi, setAt_same]
    · rw [setAt_ne _ _ hi]
      have : i ≠ n := fun e => hi (by rw [e])
      exact ih (by omega)

theorem reopen_off (lm : Nat → Nat) (memo : Nat → Nat) (n T : Nat)
    (h : ∀ i, i < n → lm i ≠ T) : reopen lm n memo T = memo T := by
  induction n with
  | zero => rfl
  | succ n ih =>
    rw [reopen_succ, setAt_ne _ _ (fun e => h n (by omega) e.symm)]
    exact ih (fun i hi => h i (by omega))

/-! ### Solutions still to come -/

theorem chosen_congr {s t : SearchState} {j : Nat} (h : SameAt s t j) :
    chosen s j = chosen t j := by
  unfold chosen
  rw [h.1, h.2.1]

theorem later_congr {s t : SearchState} {j : Nat} (h : SameAt s t j) :
    later s j = later t j := by
  unfold later
  rw [h.1, h.2.1, h.2.2]

theorem liftTo_congr {s t : SearchState} (i d : Nat) (h : ∀ j, j < i + d → SameAt s t j)
    (X : List (List Nat)) : liftTo s i d X = liftTo t i d X := by
  induction d generalizing X with
  | zero => rfl
  | succ d ih =>
    simp only [liftTo]
    rw [chosen_congr (h (i + d) (by omega)), later_congr (h (i + d) (by omega))]
    exact ih (fun j hj => h j (by omega)) _

theorem chosenFrom_congr {s t : SearchState} (i d : Nat) (h : ∀ j, j < i + d → SameAt s t j) :
    chosenFrom s i d = chosenFrom t i d := by
  induction d with
  | zero => rfl
  | succ d ih =>
    simp only [chosenFrom]
    rw [chosen_congr (h (i + d) (by omega)), ih (fun j hj => h j (by omega))]

/-- A solution found at the top is, seen from level `i`, the chosen words of
the levels in between followed by it, and it comes first. -/
theorem liftTo_cons (s : SearchState) (i d : Nat) (x : List Nat) (X : List (List Nat)) :
    liftTo s i d (x :: X) = (chosenFrom s i d ++ x) :: liftTo s i d X := by
  induction d generalizing x X with
  | zero => simp [liftTo, chosenFrom]
  | succ d ih =>
    simp only [liftTo, chosenFrom, List.map_cons, List.cons_append]
    rw [ih]
    simp

theorem sentence_eq_chosenFrom (s : SearchState) (n : Nat) :
    sentence s.level_dict s.level_word_index n = chosenFrom s 0 n := by
  induction n with
  | zero => rfl
  | succ n ih =>
    unfold sentence at ih ⊢
    simp only [chosenFrom, List.range_succ, List.map_append, List.map_cons, List.map_nil, ih]
    simp [chosen]

/-! ### Facts that follow from the invariant -/

theorem Inv.fits {l : List Nat} {s : SearchState} (h : Inv l s) {i : Nat} (hi : i ≤ s.level)
    {x : Nat} (hx : x ∈ s.level_dict i) : s.level_mask i &&& x = 0 ∧ x ∈ l := by
  have hm := (h.suffix i hi).subset hx
  rw [List.mem_filter] at hm
  exact ⟨by simpa using hm.2, hm.1⟩

theorem lastN_of_suffix {d F : List Nat} (h : d <:+ F) : lastN d.length F = d := by
  unfold lastN
  exact (List.suffix_iff_eq_drop.1 h).symm

/-- When the index of the top level has reached its stop index, no solution of
that level is still to come. -/
theorem Inv.later_nil {l : List Nat} {s : SearchState} (h : Inv l s)
    (hge : s.level_word_index s.level + 1 ≥ (s.level_stop_index s.level : Int)) :
    later s s.level = [] := by
  unfold later
  have ht := (h.trunc s.level (le_refl _)).2
  have hk : (s.level_word_index s.level + 1).toNat =
      s.level_stop_index s.level + ((s.level_word_index s.level + 1).toNat - s.level_stop_index s.level) := by
    omega
  rw [hk, ← List.drop_drop]
  exact bruteForce_drop_nil _ _ ht

/-- The pop branch (lines 211-217) keeps the invariant. -/
theorem Inv.pop {l : List Nat} {s t : SearchState} (h : Inv l s)
    (hge : s.level_word_index s.level + 1 ≥ (s.level_stop_index s.level : Int))
    (hl : s.level ≠ 0)
    (e1 : t.level = s.level - 1)
    (e2 : t.level_word_index = setAt s.level_word_index s.level (s.level_word_index s.level + 1))
    (e3 : t.level_mask = s.level_mask) (e4 : t.level_stop_index = s.level_stop_index)
    (e5 : t.level_dict = s.level_dict)
    (e6 : t.mask_completed_length = s.mask_completed_length)
    (e7 : t.solutions = s.solutions) : Inv l t := by
  obtain ⟨n, hn⟩ : ∃ n, s.level = n + 1 := ⟨s.level - 1, by omega⟩
  have hlater := h.later_nil hge
  have e1' : t.level = n := by omega
  have hwi : ∀ j, j ≤ n → t.level_word_index j = s.level_word_index j := by
    intro j hj
    rw [e2, setAt_ne _ _ (by omega)]
  have same : ∀ j, j ≤ n → SameAt s t j := by
    intro j hj
    exact ⟨by rw [e5], (hwi j hj).symm, by rw [e3]⟩
  have hlift : ∀ i d, i + d = n →
      liftTo s i (d + 1) (later s s.level) = liftTo t i d (later t n) := by
    intro i d hid
    simp only [liftTo, hlater, List.map_nil, List.nil_append]
    rw [hid, later_congr (same n (le_refl _))]
    exact liftTo_congr i d (fun j hj => same j (by omega)) _
  constructor
  · rw [e3]; exact h.mask0
  · rw [e5]; exact h.dict0
  · rw [e1', hwi n (le_refl _)]
    have := (h.chain n (by omega)).1
    omega
  · intro i hi
    rw [e1'] at hi
    have hc := h.chain i (by omega)
    rw [← chosen_congr (same i (by omega)), hwi i (by omega), e3, e5]
    exact hc
  · intro i j hij hj
    rw [e3]
    exact h.subs i j hij (by omega)
  · intro i hi
    rw [e3, e5]
    exact h.suffix i (by omega)
  · intro i hi
    rw [e3, e4, e5]
    exact h.trunc i (by omega)
  · intro i d hid hm
    rw [e6, e3] at hm
    have := h.memoOn i (d + 1) (by omega) hm
    rw [e6, e3, e5, e1', ← hlift i d (by omega)]
    exact this
  · intro T hT hm
    rw [e6] at hm ⊢
    by_cases hTl : s.level_mask s.level = T
    · have := h.memoOn s.level 0 (by omega) (by rw [hTl]; exact hm)
      have hb : bruteForce (s.level_mask s.level) (s.level_dict s.level) = [] := by
        rw [this.2]
        exact hlater
      have hs := lastN_of_suffix (h.suffix s.level (le_refl _))
      rw [hTl] at this hb hs
      rw [this.1, hs]
      exact hb
    · apply h.memoOff T _ hm
      intro i hi
      by_cases hin : i = s.level
      · rw [hin]; exact hTl
      · have := hT i (by omega)
        rwa [e3] at this
  · rw [e7, e1', ← hlift 0 n (by omega)]
    have := h.out
    rw [hn] at this ⊢
    exact this

/-! ### The branches of `step` -/

theorem step_halt {s : SearchState} (hge : nextIndex s ≥ (s.level_stop_index s.level : Int))
    (hl : s.level = 0) : step s = none := by
  unfold nextIndex at hge
  simp only [step, if_pos hge, if_pos hl]

theorem step_pop {s : SearchState} (hge : nextIndex s ≥ (s.level_stop_index s.level : Int))
    (hl : s.level ≠ 0) :
    step s = some { s with
      level := s.level - 1
      level_word_index := setAt s.level_word_index s.level (nextIndex s) } := by
  unfold nextIndex at hge ⊢
  simp only [step, if_pos hge, if_neg hl]

theorem step_solution {s : SearchState} (hlt : nextIndex s < (s.level_stop_index s.level : Int))
    (hfull : nextMask s = ALL_LETTERS_MASK) :
    step s = some { s with
      level_word_index := setAt (setAt s.level_word_index s.level (nextIndex s)) (s.level + 1) (-1)
      level_mask := setAt s.level_mask (s.level + 1) (nextMask s)
      mask_completed_length :=
        reopen (setAt s.level_mask (s.level + 1) (nextMask s)) (s.level + 1) s.mask_completed_length
      solutions := s.solutions ++
        [sentence s.level_dict
          (setAt (setAt s.level_word_index s.level (nextIndex s)) (s.level + 1) (-1))
          (s.level + 1)] } := by
  unfold nextMask nextWord nextIndex at *
  have hlt' := not_le.2 hlt
  simp only [step, if_neg hlt', Nat.add_sub_cancel, if_pos hfull]

theorem step_skip {s : SearchState} (hlt : nextIndex s < (s.level_stop_index s.level : Int))
    (hfull : nextMask s ≠ ALL_LETTERS_MASK)
    (hprev : s.mask_completed_length (nextMask s) ≠ 0)
    (hlen : s.mask_completed_length (nextMask s) ≥ (nextDict s).length) :
    step s = some { s with
      level_word_index := setAt (setAt s.level_word_index s.level (nextIndex s)) (s.level + 1) (-1)
      level_mask := setAt s.level_mask (s.level + 1) (nextMask s)
      level_dict := setAt s.level_dict (s.level + 1) (nextDict s)
      level_stop_index := setAt s.level_stop_index (s.level + 1) (nextDict s).length } := by
  unfold nextDict nextMask nextWord nextIndex at *
  have hlt' := not_le.2 hlt
  simp only [step, if_neg hlt', Nat.add_sub_cancel, if_neg hfull, if_pos hprev, if_pos hlen]

theorem step_push {s : SearchState} (hlt : nextIndex s < (s.level_stop_index s.level : Int))
    (hfull : nextMask s ≠ ALL_LETTERS_MASK)
    (hprev : s.mask_completed_length (nextMask s) = 0 ∨
      s.mask_completed_length (nextMask s) < (nextDict s).length) :
    step s = some { s with
      level := s.level + 1
      level_word_index := setAt (setAt s.level_word_index s.level (nextIndex s)) (s.level + 1) (-1)
      level_mask := setAt s.level_mask (s.level + 1) (nextMask s)
      level_dict := setAt s.level_dict (s.level + 1) (nextDict s)
      level_stop_index := setAt s.level_stop_index (s.level + 1)
        ((nextDict s).length - s.mask_completed_length (nextMask s))
      mask_completed_length :=
        setAt s.mask_completed_length (nextMask s) (nextDict s).length } := by
  unfold nextDict nextMask nextWord nextIndex at *
  have hlt' := not_le.2 hlt
  by_cases h0 : s.mask_completed_length
      (s.level_mask s.level ||| (s.level_dict s.level).getD (s.level_word_index s.level + 1).toNat 0) = 0
  · simp only [step, if_neg hlt', Nat.add_sub_cancel, if_neg hfull, h0, Nat.sub_zero, ne_eq,
      not_true_eq_false, if_false]
  · have hlt2 := not_le.2 (hprev.resolve_left h0)
    simp only [step, if_neg hlt', Nat.add_sub_cancel, if_neg hfull, if_pos h0, ge_iff_le, if_neg hlt2]

/-! ### Advancing the top level -/

theorem Inv.next_bounds {l : List Nat} {s : SearchState} (h : Inv l s)
    (hlt : nextIndex s < (s.level_stop_index s.level : Int)) :
    0 ≤ nextIndex s ∧ (nextIndex s).toNat < (s.level_dict s.level).length := by
  have h1 := h.top
  have h2 := (h.trunc s.level (le_refl _)).1
  unfold nextIndex at *
  omega

theorem Inv.drop_next {l : List Nat} {s : SearchState} (h : Inv l s)
    (hlt : nextIndex s < (s.level_stop_index s.level : Int)) :
    (s.level_dict s.level).drop (nextIndex s).toNat =
      nextWord s :: (s.level_dict s.level).drop (nextIndex s + 1).toNat := by
  have hb := h.next_bounds hlt
  have e : (nextIndex s + 1).toNat = (nextIndex s).toNat + 1 := by omega
  rw [e, List.drop_eq_getElem_cons hb.2]
  unfold nextWord
  rw [List.getD_eq_getElem _ _ hb.2]

theorem Inv.next_mem {l : List Nat} {s : SearchState} (h : Inv l s)
    (hlt : nextIndex s < (s.level_stop_index s.level : Int)) :
    nextWord s ∈ s.level_dict s.level := by
  have hb := h.next_bounds hlt
  unfold nextWord
  rw [List.getD_eq_getElem _ _ hb.2]
  exact List.getElem_mem _

theorem Inv.next_fits {l : List Nat} {s : SearchState} (h : Inv l s)
    (hlt : nextIndex s < (s.level_stop_index s.level : Int)) :
    s.level_mask s.level &&& nextWord s = 0 ∧ nextWord s ∈ l :=
  h.fits (le_refl _) (h.next_mem hlt)

/-- The sentence mask of the new level is on no level of the stack. -/
theorem Inv.nextMask_fresh {l : List Nat} {s : SearchState} (h : Inv l s)
    (hnz : ∀ m ∈ l, m ≠ 0)
    (hlt : nextIndex s < (s.level_stop_index s.level : Int)) :
    ∀ i, i ≤ s.level → s.level_mask i ≠ nextMask s := by
  intro i hi e
  have hf := h.next_fits hlt
  exact or_ne_of_subset (h.subs i s.level hi (le_refl _)) hf.1 (hnz _ hf.2) e.symm

/-- The solutions of the top level still to come, split at the next word. -/
theorem Inv.later_eq {l : List Nat} {s : SearchState} (h : Inv l s)
    (hlt : nextIndex s < (s.level_stop_index s.level : Int)) :
    later s s.level = bruteForce (s.level_mask s.level)
      (nextWord s :: (s.level_dict s.level).drop (nextIndex s + 1).toNat) := by
  rw [← h.drop_next hlt]
  rfl

theorem bruteForce_nextDict (s : SearchState) :
    bruteForce (nextMask s) (nextDict s) =
      bruteForce (nextMask s) ((s.level_dict s.level).drop (nextIndex s + 1).toNat) := by
  unfold nextDict childDict
  exact bruteForce_filter _ _ _ (fun _ hx => hx)

theorem Inv.nextDict_suffix {l : List Nat} {s : SearchState} (h : Inv l s) :
    nextDict s <:+ l.filter (fun x => nextMask s &&& x = 0) := by
  have h1 : (s.level_dict s.level).drop (nextIndex s + 1).toNat <:+
      l.filter (fun x => s.level_mask s.level &&& x = 0) :=
    (List.drop_suffix _ _).trans (h.suffix s.level (le_refl _))
  have h2 := h1.filter (fun x => nextMask s &&& x = 0)
  rw [List.filter_filter] at h2
  have e : (fun a => decide (nextMask s &&& a = 0) && decide (s.level_mask s.level &&& a = 0)) =
      (fun x => decide (nextMask s &&& x = 0)) := by
    funext a
    by_cases ha : nextMask s &&& a = 0
    · have := ((or_and_eq_zero_iff _ _ _).1 ha).1
      simp [ha, this]
    · simp [ha]
  rw [e] at h2
  exact h2

/-- What the memo table says about the new sentence mask: no solution among the
last `mask_completed_length` words that fit it. -/
theorem suffix_drop_eq_lastN {d F : List Nat} (h : d <:+ F) {p : Nat} (hp : p ≤ d.length) :
    d.drop (d.length - p) = lastN p F := by
  obtain ⟨pre, rfl⟩ := h
  unfold lastN
  have : (pre ++ d).length - p = pre.length + (d.length - p) := by
    simp only [List.length_append]
    omega
  rw [this, List.drop_append]

theorem suffix_eq_drop_lastN {d F : List Nat} (h : d <:+ F) {p : Nat} (hp : d.length ≤ p) :
    ∃ k, d = (lastN p F).drop k := by
  obtain ⟨pre, rfl⟩ := h
  unfold lastN
  refine ⟨pre.length - ((pre ++ d).length - p), ?_⟩
  rw [List.drop_drop]
  have : (pre ++ d).length - p + (pre.length - ((pre ++ d).length - p)) = pre.length := by
    simp only [List.length_append]
    omega
  rw [this, List.drop_left]

theorem Advanced.index_lt {s t : SearchState} (a : Advanced s t) {j : Nat} (hj : j < s.level) :
    t.level_word_index j = s.level_word_index j := by
  rw [a.index, setAt_ne _ _ (by omega), setAt_ne _ _ (by omega)]

theorem Advanced.index_top {s t : SearchState} (a : Advanced s t) :
    t.level_word_index s.level = nextIndex s := by
  rw [a.index, setAt_ne _ _ (by omega), setAt_same]

theorem Advanced.index_new {s t : SearchState} (a : Advanced s t) :
    t.level_word_index (s.level + 1) = -1 := by
  rw [a.index, setAt_same]

theorem Advanced.mask_le {s t : SearchState} (a : Advanced s t) {j : Nat} (hj : j ≤ s.level) :
    t.level_mask j = s.level_mask j := by
  rw [a.mask, setAt_ne _ _ (by omega)]

theorem Advanced.mask_new {s t : SearchState} (a : Advanced s t) :
    t.level_mask (s.level + 1) = nextMask s := by
  rw [a.mask, setAt_same]

theorem Advanced.same {s t : SearchState} (a : Advanced s t) {j : Nat} (hj : j < s.level) :
    SameAt s t j :=
  ⟨(a.dict j (by omega)).symm, (a.index_lt hj).symm, (a.mask_le (by omega)).symm⟩

theorem Advanced.chosen_top {s t : SearchState} (a : Advanced s t) :
    chosen t s.level = nextWord s := by
  unfold chosen nextWord
  rw [a.dict _ (le_refl _), a.index_top]

theorem Advanced.later_top {s t : SearchState} (a : Advanced s t) :
    later t s.level =
      bruteForce (s.level_mask s.level) ((s.level_dict s.level).drop (nextIndex s + 1).toNat) := by
  unfold later
  rw [a.dict _ (le_refl _), a.index_top, a.mask_le (le_refl _)]

theorem Inv.adv_chain {l : List Nat} {s t : SearchState} (h : Inv l s) (a : Advanced s t) :
    ∀ i, i < s.level →
    0 ≤ t.level_word_index i ∧ (t.level_word_index i).toNat < (t.level_dict i).length ∧
    t.level_mask (i + 1) = t.level_mask i ||| chosen t i ∧
    t.level_dict (i + 1) = childDict (t.level_dict i) (t.level_word_index i) (t.level_mask (i + 1)) := by
  intro i hi
  rw [← chosen_congr (a.same hi), a.index_lt hi, a.dict i (by omega), a.dict (i + 1) (by omega),
    a.mask_le (by omega), a.mask_le (by omega)]
  exact h.chain i hi

theorem Inv.adv_subs {l : List Nat} {s t : SearchState} (h : Inv l s) (a : Advanced s t) :
    ∀ i j, i ≤ j → j ≤ s.level → t.level_mask i ||| t.level_mask j = t.level_mask j := by
  intro i j hij hj
  rw [a.mask_le (by omega), a.mask_le hj]
  exact h.subs i j hij hj

theorem Inv.adv_suffix {l : List Nat} {s t : SearchState} (h : Inv l s) (a : Advanced s t) :
    ∀ i, i ≤ s.level → t.level_dict i <:+ l.filter (fun x => t.level_mask i &&& x = 0) := by
  intro i hi
  rw [a.dict i hi, a.mask_le hi]
  exact h.suffix i hi

theorem Inv.adv_trunc {l : List Nat} {s t : SearchState} (h : Inv l s) (a : Advanced s t) :
    ∀ i, i ≤ s.level →
    t.level_stop_index i ≤ (t.level_dict i).length ∧
    bruteForce (t.level_mask i) ((t.level_dict i).drop (t.level_stop_index i)) = [] := by
  intro i hi
  rw [a.dict i hi, a.mask_le hi, a.stop i hi]
  exact h.trunc i hi

/-- The next word completes the alphabet: seen from level `i`, the sentence of
the stack is the first of the solutions still to come. -/
theorem Inv.adv_lift_full {l : List Nat} {s t : SearchState} (h : Inv l s) (a : Advanced s t)
    (hlt : nextIndex s < (s.level_stop_index s.level : Int))
    (hfull : nextMask s = ALL_LETTERS_MASK) (i d : Nat) (hid : i + d = s.level) :
    liftTo s i d (later s s.level) =
      (chosenFrom t i (d + 1)) :: liftTo t i d (later t s.level) := by
  rw [h.later_eq hlt, bruteForce_cons_full _ (h.next_fits hlt).1 hfull, liftTo_cons,
    a.later_top, liftTo_congr i d (fun j hj => a.same (by omega))]
  simp only [chosenFrom]
  rw [chosenFrom_congr i d (fun j hj => a.same (by omega)), hid, a.chosen_top]

/-- The next word does not complete the alphabet: the solutions still to come
are those below the new level, then those of the top level after the word. -/
theorem Inv.adv_lift {l : List Nat} {s t : SearchState} (h : Inv l s) (a : Advanced s t)
    (hlt : nextIndex s < (s.level_stop_index s.level : Int))
    (hfull : nextMask s ≠ ALL_LETTERS_MASK) (i d : Nat) (hid : i + d = s.level) :
    liftTo s i d (later s s.level) =
      liftTo t i d ((bruteForce (nextMask s) (nextDict s)).map (fun x => nextWord s :: x) ++
        later t s.level) := by
  rw [h.later_eq hlt, bruteForce_cons_fit _ (h.next_fits hlt).1 hfull,
    a.later_top, liftTo_congr i d (fun j hj => a.same (by omega)), bruteForce_nextDict]
  rfl

/-- The solution branch (lines 223-259) keeps the invariant. -/
theorem Inv.solution {l : List Nat} {s t : SearchState} (h : Inv l s) (a : Advanced s t)
    (hlt : nextIndex s < (s.level_stop_index s.level : Int))
    (hfull : nextMask s = ALL_LETTERS_MASK)
    (e1 : t.level = s.level)
    (e6 : t.mask_completed_length = reopen t.level_mask (s.level + 1) s.mask_completed_length)
    (e7 : t.solutions = s.solutions ++ [sentence t.level_dict t.level_word_index (s.level + 1)]) :
    Inv l t := by
  have hb := h.next_bounds hlt
  constructor
  · rw [a.mask_le (Nat.zero_le _)]; exact h.mask0
  · rw [a.dict 0 (Nat.zero_le _)]; exact h.dict0
  · rw [e1, a.index_top]; omega
  · rw [e1]; exact h.adv_chain a
  · rw [e1]; exact h.adv_subs a
  · rw [e1]; exact h.adv_suffix a
  · rw [e1]; exact h.adv_trunc a
  · intro i d hid hm
    rw [e1] at hid
    rw [e6, reopen_on _ _ _ i (by omega)] at hm
    exact absurd rfl hm
  · intro T hT hm
    rw [e1] at hT
    have hoff : ∀ i, i < s.level + 1 → t.level_mask i ≠ T := fun i hi => hT i (by omega)
    rw [e6, reopen_off _ _ _ _ hoff] at hm ⊢
    apply h.memoOff T _ hm
    intro i hi
    rw [← a.mask_le hi]
    exact hT i hi
  · rw [e7, e1, sentence_eq_chosenFrom, List.append_assoc, List.singleton_append,
      ← h.adv_lift_full a hlt hfull 0 s.level (by omega)]
    exact h.out

/-- What the memo table says about the sentence mask of the new level. -/
theorem Inv.memo_next {l : List Nat} {s : SearchState} (h : Inv l s) (hnz : ∀ m ∈ l, m ≠ 0)
    (hlt : nextIndex s < (s.level_stop_index s.level : Int))
    (hprev : s.mask_completed_length (nextMask s) ≠ 0) :
    bruteForce (nextMask s)
      (lastN (s.mask_completed_length (nextMask s)) (l.filter (fun x => nextMask s &&& x = 0))) = [] :=
  h.memoOff _ (h.nextMask_fresh hnz hlt) hprev

/-- The skip branch (lines 272-279) keeps the invariant. -/
theorem Inv.skip {l : List Nat} {s t : SearchState} (h : Inv l s) (hnz : ∀ m ∈ l, m ≠ 0)
    (a : Advanced s t)
    (hlt : nextIndex s < (s.level_stop_index s.level : Int))
    (hfull : nextMask s ≠ ALL_LETTERS_MASK)
    (hprev : s.mask_completed_length (nextMask s) ≠ 0)
    (hlen : s.mask_completed_length (nextMask s) ≥ (nextDict s).length)
    (e1 : t.level = s.level)
    (e6 : t.mask_completed_length = s.mask_completed_length)
    (e7 : t.solutions = s.solutions) :
    Inv l t := by
  have hb := h.next_bounds hlt
  have hnil : bruteForce (nextMask s) (nextDict s) = [] := by
    obtain ⟨k, hk⟩ := suffix_eq_drop_lastN h.nextDict_suffix hlen
    rw [hk]
    exact bruteForce_drop_nil _ _ (h.memo_next hnz hlt hprev)
  have hlift : ∀ i d, i + d = s.level →
      liftTo s i d (later s s.level) = liftTo t i d (later t s.level) := by
    intro i d hid
    rw [h.adv_lift a hlt hfull i d hid, hnil]
    rfl
  constructor
  · rw [a.mask_le (Nat.zero_le _)]; exact h.mask0
  · rw [a.dict 0 (Nat.zero_le _)]; exact h.dict0
  · rw [e1, a.index_top]; omega
  · rw [e1]; exact h.adv_chain a
  · rw [e1]; exact h.adv_subs a
  · rw [e1]; exact h.adv_suffix a
  · rw [e1]; exact h.adv_trunc a
  · intro i d hid hm
    rw [e1] at hid ⊢
    rw [e6, a.mask_le (by omega)] at hm ⊢
    rw [a.dict i (by omega), ← hlift i d hid]
    exact h.memoOn i d hid hm
  · intro T hT hm
    rw [e1] at hT
    rw [e6] at hm ⊢
    apply h.memoOff T _ hm
    intro i hi
    rw [← a.mask_le hi]
    exact hT i hi
  · rw [e7, e1, ← hlift 0 s.level (by omega)]
    exact h.out

/-- The push branch (lines 261-284, the child is entered) keeps the invariant. -/
theorem Inv.push {l : List Nat} {s t : SearchState} (h : Inv l s) (hnz : ∀ m ∈ l, m ≠ 0)
    (a : Advanced s t)
    (hlt : nextIndex s < (s.level_stop_index s.level : Int))
    (hfull : nextMask s ≠ ALL_LETTERS_MASK)
    (hprev : s.mask_completed_length (nextMask s) = 0 ∨
      s.mask_completed_length (nextMask s) < (nextDict s).length)
    (e1 : t.level = s.level + 1)
    (e4 : t.level_stop_index (s.level + 1) =
      (nextDict s).length - s.mask_completed_length (nextMask s))
    (e5 : t.level_dict (s.level + 1) = nextDict s)
    (e6 : t.mask_completed_length =
      setAt s.mask_completed_length (nextMask s) (nextDict s).length)
    (e7 : t.solutions = s.solutions) :
    Inv l t := by
  have hb := h.next_bounds hlt
  have hfresh := h.nextMask_fresh hnz hlt
  have hlater_new : later t (s.level + 1) = bruteForce (nextMask s) (nextDict s) := by
    unfold later
    rw [a.index_new, a.mask_new, e5]
    rfl
  have hlift : ∀ i d, i + d = s.level →
      liftTo s i d (later s s.level) = liftTo t i (d + 1) (later t (s.level + 1)) := by
    intro i d hid
    rw [h.adv_lift a hlt hfull i d hid, hlater_new]
    simp only [liftTo]
    rw [hid, a.chosen_top]
  constructor
  · rw [a.mask_le (Nat.zero_le _)]; exact h.mask0
  · rw [a.dict 0 (Nat.zero_le _)]; exact h.dict0
  · rw [e1, a.index_new]
  · intro i hi
    rw [e1] at hi
    by_cases hil : i < s.level
    · exact h.adv_chain a i hil
    · have : i = s.level := by omega
      subst this
      rw [a.index_top, a.dict _ (le_refl _), a.mask_new, a.mask_le (le_refl _), a.chosen_top, e5]
      exact ⟨hb.1, hb.2, rfl, rfl⟩
  · intro i j hij hj
    rw [e1] at hj
    by_cases hjl : j ≤ s.level
    · exact h.adv_subs a i j hij hjl
    · have : j = s.level + 1 := by omega
      subst this
      rw [a.mask_new]
      by_cases hil : i ≤ s.level
      · rw [a.mask_le hil]
        unfold nextMask
        rw [← Nat.or_assoc, h.subs i s.level hil (le_refl _)]
      · have : i = s.level + 1 := by omega
        subst this
        rw [a.mask_new, Nat.or_self]
  · intro i hi
    rw [e1] at hi
    by_cases hil : i ≤ s.level
    · exact h.adv_suffix a i hil
    · have : i = s.level + 1 := by omega
      subst this
      rw [e5, a.mask_new]
      exact h.nextDict_suffix
  · intro i hi
    rw [e1] at hi
    by_cases hil : i ≤ s.level
    · exact h.adv_trunc a i hil
    · have : i = s.level + 1 := by omega
      subst this
      rw [e4, e5, a.mask_new]
      refine ⟨Nat.sub_le _ _, ?_⟩
      rcases hprev with h0 | hlt2
      · rw [h0, Nat.sub_zero, List.drop_length]
        rfl
      · by_cases h0 : s.mask_completed_length (nextMask s) = 0
        · rw [h0, Nat.sub_zero, List.drop_length]
          rfl
        · rw [suffix_drop_eq_lastN h.nextDict_suffix (le_of_lt hlt2)]
          exact h.memo_next hnz hlt h0
  · intro i d hid hm
    rw [e1] at hid ⊢
    cases d with
    | zero =>
      have : i = s.level + 1 := by omega
      subst this
      rw [a.mask_new, e6, setAt_same, e5]
      exact ⟨rfl, hlater_new.symm⟩
    | succ d =>
      have hil : i ≤ s.level := by omega
      have hne : s.level_mask i ≠ nextMask s := hfresh i hil
      rw [e6, a.mask_le hil, setAt_ne _ _ hne] at hm ⊢
      rw [a.dict i hil, ← hlift i d (by omega)]
      exact h.memoOn i d (by omega) hm
  · intro T hT hm
    rw [e1] at hT
    have hne : T ≠ nextMask s := by
      intro e
      have := hT (s.level + 1) (le_refl _)
      rw [a.mask_new] at this
      exact this e.symm
    rw [e6, setAt_ne _ _ hne] at hm ⊢
    apply h.memoOff T _ hm
    intro i hi
    rw [← a.mask_le hi]
    exact hT i (by omega)
  · rw [e7, e1, ← hlift 0 s.level (by omega)]
    exact h.out

/-! ### The invariant holds along the run -/

theorem Inv.init (l : List Nat) : Inv l (initState l) := by
  constructor
  · rfl
  · rfl
  · exact le_refl _
  · intro i hi
    exact absurd hi (Nat.not_lt_zero _)
  · intro i j _ _
    show 0 ||| 0 = 0
    decide
  · intro i _
    show l <:+ l.filter (fun x => 0 &&& x = 0)
    have : l.filter (fun x => 0 &&& x = 0) = l := by
      rw [List.filter_eq_self]
      intro a _
      simp
    rw [this]
  · intro i _
    refine ⟨le_refl _, ?_⟩
    show bruteForce 0 (l.drop l.length) = []
    rw [List.drop_length]
    rfl
  · intro i d _ hm
    exact absurd rfl hm
  · intro T _ hm
    exact absurd rfl hm
  · show [] ++ liftTo (initState l) 0 0 (later (initState l) 0) = bruteForce 0 l
    rfl

theorem Inv.step {l : List Nat} {s t : SearchState} (h : Inv l s) (hnz : ∀ m ∈ l, m ≠ 0)
    (hs : step s = some t) : Inv l t := by
  by_cases hge : nextIndex s ≥ (s.level_stop_index s.level : Int)
  · by_cases hl : s.level = 0
    · rw [step_halt hge hl] at hs
      exact absurd hs (by simp)
    · rw [step_pop hge hl] at hs
      have e := Option.some.inj hs
      subst e
      exact h.pop hge hl rfl rfl rfl rfl rfl rfl rfl
  · have hlt := not_le.1 hge
    by_cases hfull : nextMask s = ALL_LETTERS_MASK
    · rw [step_solution hlt hfull] at hs
      have e := Option.some.inj hs
      subst e
      exact h.solution ⟨rfl, rfl, fun _ _ => rfl, fun _ _ => rfl⟩ hlt hfull rfl rfl rfl
    · by_cases hprev : s.mask_completed_length (nextMask s) ≠ 0 ∧
          s.mask_completed_length (nextMask s) ≥ (nextDict s).length
      · rw [step_skip hlt hfull hprev.1 hprev.2] at hs
        have e := Option.some.inj hs
        subst e
        refine h.skip hnz ⟨rfl, rfl, ?_, ?_⟩ hlt hfull hprev.1 hprev.2 rfl rfl rfl
        · intro j hj
          exact setAt_ne _ _ (by omega)
        · intro j hj
          exact setAt_ne _ _ (by omega)
      · have hprev' : s.mask_completed_length (nextMask s) = 0 ∨
            s.mask_completed_length (nextMask s) < (nextDict s).length := by
          by_cases h0 : s.mask_completed_length (nextMask s) = 0
          · exact Or.inl h0
          · right
            by_contra hc
            exact hprev ⟨h0, not_lt.1 hc⟩
        rw [step_push hlt hfull hprev'] at hs
        have e := Option.some.inj hs
        subst e
        refine h.push hnz ⟨rfl, rfl, ?_, ?_⟩ hlt hfull hprev' rfl ?_ ?_ rfl rfl
        · intro j hj
          exact setAt_ne _ _ (by omega)
        · intro j hj
          exact setAt_ne _ _ (by omega)
        · exact setAt_same _ _ _
        · exact setAt_same _ _ _

theorem Inv.runN {l : List Nat} (hnz : ∀ m ∈ l, m ≠ 0) (n : Nat) :
    ∀ s, Inv l s → Inv l (runN n s) := by
  induction n with
  | zero => intro s h; exact h
  | succ n ih =>
    intro s h
    unfold Pangram.runN
    cases hs : Pangram.step s with
    | none => exact h
    | some t => exact ih t (h.step hnz hs)

/-- The sentences printed so far are an initial part of what the reference
enumerator lists. -/
theorem emitted_initial {l : List Nat} (hnz : ∀ m ∈ l, m ≠ 0) (n : Nat) :
    emitted n l <+: bruteForce 0 l :=
  ⟨_, (Inv.runN hnz n _ (Inv.init l)).out⟩

/-! ### Termination of the main loop -/

theorem weight_pos (r : Nat) : 0 < weight r := by
  unfold weight
  have : 2 ≤ 2 ^ (r + 1) := by
    calc 2 = 2 ^ 1 := rfl
      _ ≤ 2 ^ (r + 1) := Nat.pow_le_pow_right (by decide) (by omega)
  omega

theorem weight_succ (r : Nat) : weight (r + 1) = 2 * weight r + 1 := by
  unfold weight
  have h1 : 2 ^ (r + 1 + 1) = 2 * 2 ^ (r + 1) := by rw [Nat.pow_succ, Nat.mul_comm]
  have h2 : 0 < 2 ^ (r + 1) := Nat.two_pow_pos _
  omega

theorem weight_mono {a b : Nat} (h : a ≤ b) : weight a ≤ weight b := by
  unfold weight
  have : 2 ^ (a + 1) ≤ 2 ^ (b + 1) := Nat.pow_le_pow_right (by decide) (by omega)
  omega

theorem measureBelow_congr {s t : SearchState} (n : Nat)
    (h : ∀ j, j < n → wordsLeft t j = wordsLeft s j) : measureBelow t n = measureBelow s n := by
  induction n with
  | zero => rfl
  | succ n ih =>
    simp only [measureBelow]
    rw [ih (fun j hj => h j (by omega)), h n (by omega)]

theorem Advanced.wordsLeft_lt {s t : SearchState} (a : Advanced s t) {j : Nat} (hj : j < s.level) :
    wordsLeft t j = wordsLeft s j := by
  unfold wordsLeft
  rw [a.dict j (by omega), a.index_lt hj]

theorem Inv.wordsLeft_top {l : List Nat} {s t : SearchState} (h : Inv l s) (a : Advanced s t)
    (hlt : nextIndex s < (s.level_stop_index s.level : Int)) :
    wordsLeft s s.level = wordsLeft t s.level + 1 := by
  have hb := h.next_bounds hlt
  unfold wordsLeft
  rw [a.dict _ (le_refl _), a.index_top]
  unfold nextIndex at *
  omega

theorem nextDict_length_le (s : SearchState) :
    (nextDict s).length ≤ (s.level_dict s.level).length - (nextIndex s + 1).toNat := by
  unfold nextDict childDict
  calc (List.filter _ _).length ≤ ((s.level_dict s.level).drop (nextIndex s + 1).toNat).length :=
        List.length_filter_le _ _
    _ = _ := List.length_drop _ _

theorem measure_pop {s t : SearchState} (hl : s.level ≠ 0) (e1 : t.level = s.level - 1)
    (e2 : t.level_word_index = setAt s.level_word_index s.level (nextIndex s))
    (e5 : t.level_dict = s.level_dict) : measure t < measure s := by
  obtain ⟨n, hn⟩ : ∃ n, s.level = n + 1 := ⟨s.level - 1, by omega⟩
  unfold measure
  have e1' : t.level = n := by omega
  rw [e1', hn]
  have hc : measureBelow t (n + 1) = measureBelow s (n + 1) := by
    apply measureBelow_congr
    intro j hj
    unfold wordsLeft
    rw [e2, e5, setAt_ne _ _ (by omega)]
  rw [hc]
  show _ < measureBelow s (n + 1) + weight _
  have := weight_pos (wordsLeft s (n + 1))
  omega

/-- Every iteration that does not leave the loop lowers the measure. -/
theorem Inv.measure_step {l : List Nat} {s t : SearchState} (h : Inv l s)
    (hs : Pangram.step s = some t) : measure t < measure s := by
  unfold measure
  by_cases hge : nextIndex s ≥ (s.level_stop_index s.level : Int)
  · by_cases hl : s.level = 0
    · rw [step_halt hge hl] at hs
      exact absurd hs (by simp)
    · rw [step_pop hge hl] at hs
      have e := Option.some.inj hs
      subst e
      exact measure_pop hl rfl rfl rfl
  · have hlt := not_le.1 hge
    have key : ∀ t, Advanced s t → t.level = s.level ∨
        (t.level = s.level + 1 ∧ t.level_dict (s.level + 1) = nextDict s) →
        measureBelow t (t.level + 1) < measureBelow s (s.level + 1) := by
      intro t a ht
      have h1 := measureBelow_congr s.level (fun j hj => a.wordsLeft_lt hj)
      have h2 := h.wordsLeft_top a hlt
      have h3 := weight_succ (wordsLeft t s.level)
      rcases ht with e | ⟨e, ed⟩
      · rw [e]
        simp only [measureBelow]
        rw [h1, h2, h3]
        omega
      · rw [e]
        simp only [measureBelow]
        rw [h1, h2, h3]
        have h4 : wordsLeft t (s.level + 1) ≤ wordsLeft t s.level := by
          unfold wordsLeft
          rw [ed, a.index_new, a.dict _ (le_refl _), a.index_top]
          have := nextDict_length_le s
          omega
        have := weight_mono h4
        omega
    by_cases hfull : nextMask s = ALL_LETTERS_MASK
    · rw [step_solution hlt hfull] at hs
      have e := Option.some.inj hs
      subst e
      exact key _ ⟨rfl, rfl, fun _ _ => rfl, fun _ _ => rfl⟩ (Or.inl rfl)
    · by_cases hprev : s.mask_completed_length (nextMask s) ≠ 0 ∧
          s.mask_completed_length (nextMask s) ≥ (nextDict s).length
      · rw [step_skip hlt hfull hprev.1 hprev.2] at hs
        have e := Option.some.inj hs
        subst e
        exact key _ ⟨rfl, rfl, fun j hj => setAt_ne _ _ (by omega),
          fun j hj => setAt_ne _ _ (by omega)⟩ (Or.inl rfl)
      · have hprev' : s.mask_completed_length (nextMask s) = 0 ∨
            s.mask_completed_length (nextMask s) < (nextDict s).length := by
          by_cases h0 : s.mask_completed_length (nextMask s) = 0
          · exact Or.inl h0
          · right
            by_contra hc
            exact hprev ⟨h0, not_lt.1 hc⟩
        rw [step_push hlt hfull hprev'] at hs
        have e := Option.some.inj hs
        subst e
        exact key _ ⟨rfl, rfl, fun j hj => setAt_ne _ _ (by omega),
          fun j hj => setAt_ne _ _ (by omega)⟩ (Or.inr ⟨rfl, setAt_same _ _ _⟩)

/-- The loop is left only at level 0 with the index at the stop index. -/
theorem step_none {s : SearchState} (hs : step s = none) :
    nextIndex s ≥ (s.level_stop_index s.level : Int) ∧ s.level = 0 := by
  by_cases hge : nextIndex s ≥ (s.level_stop_index s.level : Int)
  · by_cases hl : s.level = 0
    · exact ⟨hge, hl⟩
    · rw [step_pop hge hl] at hs
      exact absurd hs (by simp)
  · have hlt := not_le.1 hge
    by_cases hfull : nextMask s = ALL_LETTERS_MASK
    · rw [step_solution hlt hfull] at hs
      exact absurd hs (by simp)
    · by_cases hprev : s.mask_completed_length (nextMask s) ≠ 0 ∧
          s.mask_completed_length (nextMask s) ≥ (nextDict s).length
      · rw [step_skip hlt hfull hprev.1 hprev.2] at hs
        exact absurd hs (by simp)
      · have hprev' : s.mask_completed_length (nextMask s) = 0 ∨
            s.mask_completed_length (nextMask s) < (nextDict s).length := by
          by_cases h0 : s.mask_completed_length (nextMask s) = 0
          · exact Or.inl h0
          · right
            by_contra hc
            exact hprev ⟨h0, not_lt.1 hc⟩
        rw [step_push hlt hfull hprev'] at hs
        exact absurd hs (by simp)

/-- With enough fuel the main loop reaches its `break`, and what it has
printed by then is what the reference enumerator lists. -/
theorem Inv.mainLoop_spec {l : List Nat} (hnz : ∀ m ∈ l, m ≠ 0) (fuel : Nat) :
    ∀ s, Inv l s → measure s < fuel →
      ∃ t, Pangram.mainLoop fuel s = some t ∧ t.solutions = bruteForce 0 l := by
  induction fuel with
  | zero => intro s _ hm; exact absurd hm (Nat.not_lt_zero _)
  | succ fuel ih =>
    intro s h hm
    unfold Pangram.mainLoop
    cases hs : Pangram.step s with
    | none =>
      refine ⟨s, rfl, ?_⟩
      have hn := step_none hs
      have ho := h.out
      rw [h.later_nil hn.1, hn.2] at ho
      simpa [liftTo] using ho
    | some t =>
      have := h.measure_step hs
      exact ih t (h.step hnz hs) (by omega)

theorem measure_init (l : List Nat) : measure (initState l) < 2 ^ (l.length + 1) := by
  show 0 + weight (l.length - 0) < _
  unfold weight
  have : 0 < 2 ^ (l.length + 1) := Nat.two_pow_pos _
  simp only [Nat.sub_zero]
  omega

/-- The complete search prints exactly the list of the reference enumerator. -/
theorem search_eq_bruteForce {l : List Nat} (hnz : ∀ m ∈ l, m ≠ 0) {fuel : Nat}
    (hfuel : 2 ^ (l.length + 1) ≤ fuel) : search fuel l = some (bruteForce 0 l) := by
  obtain ⟨t, ht, hsol⟩ := Inv.mainLoop_spec hnz fuel _ (Inv.init l)
    (lt_of_lt_of_le (measure_init l) hfuel)
  unfold search
  rw [ht]
  simp [hsol]

/-! ### What the reference enumerator lists -/

theorem orAll_cons (m : Nat) (ms : List Nat) : orAll (m :: ms) = m ||| orAll ms := rfl

/-- Every listed solution is a sublist of the word list, is not empty, fits the
sentence mask, has pairwise disjoint masks and completes the alphabet. -/
theorem bruteForce_mem {l : List Nat} :
    ∀ {S : Nat} {t : List Nat}, t ∈ bruteForce S l →
      List.Sublist t l ∧ t ≠ [] ∧ (∀ x ∈ t, S &&& x = 0) ∧ t.Pairwise (fun a b => a &&& b = 0) ∧
      S ||| orAll t = ALL_LETTERS_MASK := by
  induction l with
  | nil => intro S t h; simp [bruteForce] at h
  | cons m rest ih =>
    intro S t h
    simp only [bruteForce, List.mem_append] at h
    rcases h with h | h
    · by_cases hfit : S &&& m = 0
      · rw [if_pos hfit] at h
        by_cases hfull : S ||| m = ALL_LETTERS_MASK
        · rw [if_pos hfull, List.mem_singleton] at h
          subst h
          refine ⟨List.singleton_sublist.2 (List.mem_cons_self _ _), by simp, ?_, by simp, ?_⟩
          · intro x hx
            rw [List.mem_singleton] at hx
            rw [hx]; exact hfit
          · rw [orAll_cons]
            show S ||| (m ||| 0) = _
            rw [Nat.or_zero]; exact hfull
        · rw [if_neg hfull, List.mem_map] at h
          obtain ⟨u, hu, rfl⟩ := h
          obtain ⟨h1, _, h3, h4, h5⟩ := ih hu
          refine ⟨h1.cons₂ m, by simp, ?_, ?_, ?_⟩
          · intro x hx
            rcases List.mem_cons.1 hx with e | hx
            · rw [e]; exact hfit
            · exact ((or_and_eq_zero_iff _ _ _).1 (h3 x hx)).1
          · rw [List.pairwise_cons]
            exact ⟨fun x hx => ((or_and_eq_zero_iff _ _ _).1 (h3 x hx)).2, h4⟩
          · rw [orAll_cons, ← Nat.or_assoc]; exact h5
      · rw [if_neg hfit] at h
        simp at h
    · obtain ⟨h1, h2, h3, h4, h5⟩ := ih h
      exact ⟨h1.cons m, h2, h3, h4, h5⟩

theorem mem_or_orAll {x : Nat} {t : List Nat} (h : x ∈ t) : x ||| orAll t = orAll t := by
  induction t with
  | nil => simp at h
  | cons m ms ih =>
    rw [orAll_cons]
    rcases List.mem_cons.1 h with e | h
    · rw [e, ← Nat.or_assoc, Nat.or_self]
    · rw [Nat.or_comm m, ← Nat.or_assoc, ih h]

/-- A mask inside a full sentence that is disjoint from it is zero. -/
theorem eq_zero_of_full {S a x : Nat} (hsub : x ||| a = a) (hd : S &&& x = 0) :
    x ≠ 0 → ∀ b, b &&& x = 0 → S ||| b ≠ S ||| (b ||| a) := by
  intro hx b hb e
  obtain ⟨k, hk⟩ := Nat.ne_zero_implies_bit_true hx
  have h1 := congrArg (fun n => n.testBit k) hd
  have h2 := congrArg (fun n => n.testBit k) hb
  have h3 := congrArg (fun n => n.testBit k) hsub
  have h4 := congrArg (fun n => n.testBit k) e
  simp only [Nat.testBit_and, Nat.testBit_or, Nat.zero_testBit, hk, Bool.and_true,
    Bool.true_or] at h1 h2 h3 h4
  simp [h1, h2, ← h3] at h4

theorem count_map_cons (m : Nat) (r : List Nat) (L : List (List Nat)) :
    List.count (m :: r) (L.map (fun t => m :: t)) = List.count r L := by
  induction L with
  | nil => rfl
  | cons u us ih =>
    simp only [List.map_cons, List.count_cons, ih]
    simp

/-- Completeness of the reference enumerator: a sublist of a duplicate-free
list of non-zero masks that fits the sentence mask, is pairwise disjoint and
completes the alphabet is listed exactly once. -/
theorem bruteForce_count {l : List Nat} (hnz : ∀ m ∈ l, m ≠ 0) (hnd : l.Nodup) :
    ∀ {S : Nat} {t : List Nat}, List.Sublist t l → t ≠ [] → (∀ x ∈ t, S &&& x = 0) →
      t.Pairwise (fun a b => a &&& b = 0) → S ||| orAll t = ALL_LETTERS_MASK →
      (bruteForce S l).count t = 1 := by
  induction l with
  | nil =>
    intro S t hsub hne
    exact absurd (List.sublist_nil.1 hsub) hne
  | cons m rest ih =>
    intro S t hsub hne hfit hpw hor
    have hnd' := List.nodup_cons.1 hnd
    have hnz' : ∀ x ∈ rest, x ≠ 0 := fun x hx => hnz x (List.mem_cons_of_mem _ hx)
    have hrest : ∀ u, u ∈ bruteForce S rest → m ∉ u := by
      intro u hu hm
      exact hnd'.1 ((bruteForce_mem hu).1.subset hm)
    simp only [bruteForce, List.count_append]
    rcases List.sublist_cons_iff.1 hsub with hs | ⟨r, rfl, hr⟩
    · have hmt : m ∉ t := fun hm => hnd'.1 (hs.subset hm)
      rw [ih hnz' hnd'.2 hs hne hfit hpw hor]
      have : List.count t (if S &&& m = 0 then
          (if S ||| m = ALL_LETTERS_MASK then [[m]]
           else (bruteForce (S ||| m) rest).map (fun t => m :: t)) else []) = 0 := by
        rw [List.count_eq_zero]
        intro hmem
        apply hmt
        split at hmem
        · split at hmem
          · rw [List.mem_singleton] at hmem
            rw [hmem]; exact List.mem_singleton_self _
          · rw [List.mem_map] at hmem
            obtain ⟨u, _, rfl⟩ := hmem
            exact List.mem_cons_self _ _
        · simp at hmem
      rw [this]
    · have h0 : List.count (m :: r) (bruteForce S rest) = 0 := by
        rw [List.count_eq_zero]
        intro hmem
        exact hrest _ hmem (List.mem_cons_self _ _)
      rw [h0, Nat.add_zero, if_pos (hfit m (List.mem_cons_self _ _))]
      rw [orAll_cons, ← Nat.or_assoc] at hor
      rw [List.pairwise_cons] at hpw
      by_cases hfull : S ||| m = ALL_LETTERS_MASK
      · rw [if_pos hfull]
        cases r with
        | nil => simp
        | cons x xs =>
          exfalso
          have hx0 : x ≠ 0 := hnz' x (hr.subset (List.mem_cons_self _ _))
          have hxm : m &&& x = 0 := hpw.1 x (List.mem_cons_self _ _)
          have hxS : S &&& x = 0 := hfit x (List.mem_cons_of_mem _ (List.mem_cons_self _ _))
          have hsub := mem_or_orAll (List.mem_cons_self x xs)
          apply eq_zero_of_full hsub hxS hx0 m hxm
          rw [← Nat.or_assoc, hor, hfull]
      · rw [if_neg hfull]
        rw [count_map_cons]
        apply ih hnz' hnd'.2 hr
        · intro e
          subst e
          apply hfull
          rw [← hor]
          show _ = S ||| m ||| 0
          rw [Nat.or_zero]
        · intro x hx
          rw [or_and_eq_zero_iff]
          exact ⟨hfit x (List.mem_cons_of_mem _ hx), hpw.1 x hx⟩
        · exact hpw.2
        · exact hor

theorem lexLt_cons_cons (a : Nat) (as : List Nat) (b : Nat) (bs : List Nat) :
    lexLt (a :: as) (b :: bs) ↔ a < b ∨ (a = b ∧ lexLt as bs) := Iff.rfl

/-- The reference enumerator lists its solutions in strictly increasing
lexicographic order of any key that increases along the word list. -/
theorem bruteForce_lex (f : Nat → Nat) {l : List Nat} (hl : l.Pairwise (fun a b => f a < f b)) :
    ∀ S : Nat, (bruteForce S l).Pairwise (fun t u => lexLt (t.map f) (u.map f)) := by
  induction l with
  | nil => intro S; simp [bruteForce]
  | cons m rest ih =>
    intro S
    rw [List.pairwise_cons] at hl
    have hcross : ∀ (t : List Nat) (u : List Nat), u ∈ bruteForce S rest →
        lexLt ((m :: t).map f) (u.map f) := by
      intro t u hu
      obtain ⟨hsub, hne, _⟩ := bruteForce_mem hu
      cases u with
      | nil => exact absurd rfl hne
      | cons x xs =>
        simp only [List.map_cons, lexLt_cons_cons]
        exact Or.inl (hl.1 x (hsub.subset (List.mem_cons_self _ _)))
    simp only [bruteForce]
    rw [List.pairwise_append]
    refine ⟨?_, ih hl.2 S, ?_⟩
    · split
      · split
        · simp
        · rw [List.pairwise_map]
          refine (ih hl.2 (S ||| m)).imp ?_
          intro t u htu
          rw [List.map_cons, List.map_cons, lexLt_cons_cons]
          exact Or.inr ⟨rfl, htu⟩
      · simp
    · intro t ht u hu
      split at ht
      · split at ht
        · rw [List.mem_singleton] at ht
          rw [ht]
          exact hcross [] u hu
        · rw [List.mem_map] at ht
          obtain ⟨v, _, rfl⟩ := ht
          exact hcross v u hu
      · simp at ht

/-- In a duplicate-free list the positions increase along the list. -/
theorem position_increasing {l : List Nat} (hnd : l.Nodup) :
    l.Pairwise (fun a b => position l a < position l b) := by
  unfold position
  induction l with
  | nil => simp
  | cons x xs ih =>
    have hnd' := List.nodup_cons.1 hnd
    rw [List.pairwise_cons]
    constructor
    · intro b hb
      have hbx : x ≠ b := fun e => hnd'.1 (e ▸ hb)
      rw [List.indexOf_cons_self, List.indexOf_cons_ne _ hbx]
      exact Nat.succ_pos _
    · refine (ih hnd'.2).imp_of_mem ?_
      intro a b ha hb hab
      have hax : x ≠ a := fun e => hnd'.1 (e ▸ ha)
      have hbx : x ≠ b := fun e => hnd'.1 (e ▸ hb)
      rw [List.indexOf_cons_ne _ hax, List.indexOf_cons_ne _ hbx]
      exact Nat.succ_lt_succ hab

/-! ### The word list and the level-0 list -/

theorem compactLoop_mask_ne_zero (ws : List Word) :
    ∀ kept : List Word, (∀ p ∈ kept, p.mask ≠ 0) →
      ∀ w ∈ compactLoop ws kept, w.mask ≠ 0 := by
  induction ws with
  | nil =>
    intro kept hk w hw
    simp only [compactLoop, List.mem_reverse] at hw
    exact hk w hw
  | cons a as ih =>
    intro kept hk w hw
    unfold compactLoop at hw
    split at hw
    · exact ih kept hk w hw
    · rename_i hne
      have hk' : ∀ p ∈ a :: kept, p.mask ≠ 0 := by
        intro p hp
        rcases List.mem_cons.1 hp with e | hp
        · rw [e]; exact hne
        · exact hk p hp
      split at hw
      · exact ih [a] hk' w hw
      · split at hw
        · exact ih _ hk w hw
        · exact ih _ hk' w hw

theorem wordList_mask_ne_zero (data : List Nat) : ∀ w ∈ wordList data, w.mask ≠ 0 :=
  compactLoop_mask_ne_zero _ [] (fun _ h => absurd h (List.not_mem_nil _))

theorem anagramLoop_mem (wl : List Word) :
    ∀ (dict : List Nat) (m : Nat), m ∈ anagramLoop wl dict →
      m ∈ dict ∨ ∃ w ∈ wl, w.mask = m := by
  induction wl with
  | nil => intro dict m h; exact Or.inl h
  | cons a as ih =>
    intro dict m h
    unfold anagramLoop at h
    split at h
    · rcases ih dict m h with h | ⟨w, hw, e⟩
      · exact Or.inl h
      · exact Or.inr ⟨w, List.mem_cons_of_mem _ hw, e⟩
    · rcases ih _ m h with h | ⟨w, hw, e⟩
      · rcases List.mem_append.1 h with h | h
        · exact Or.inl h
        · rw [List.mem_singleton] at h
          exact Or.inr ⟨a, List.mem_cons_self _ _, h.symm⟩
      · exact Or.inr ⟨w, List.mem_cons_of_mem _ hw, e⟩

theorem anagramLoop_nodup (wl : List Word) :
    ∀ dict : List Nat, dict.Nodup → (anagramLoop wl dict).Nodup := by
  induction wl with
  | nil => intro dict h; exact h
  | cons a as ih =>
    intro dict h
    unfold anagramLoop
    split
    · exact ih dict h
    · rename_i hn
      apply ih
      rw [List.nodup_append]
      refine ⟨h, List.nodup_singleton _, ?_⟩
      intro x hx hx'
      rw [List.mem_singleton] at hx'
      exact hn (hx' ▸ hx)

theorem level0_mem {wl : List Word} {m : Nat} (h : m ∈ level0 wl) : ∃ w ∈ wl, w.mask = m := by
  rcases anagramLoop_mem wl [] m h with h | h
  · exact absurd h (List.not_mem_nil _)
  · exact h

theorem level0_nodup (wl : List Word) : (level0 wl).Nodup :=
  anagramLoop_nodup wl [] List.nodup_nil

theorem level0_ne_zero (data : List Nat) : ∀ m ∈ level0 (wordList data), m ≠ 0 := by
  intro m hm
  obtain ⟨w, hw, e⟩ := level0_mem hm
  rw [← e]
  exact wordList_mask_ne_zero data w hw

/-! ## The search: claims C1 to C5 -/

theorem emitted_mem_bruteForce {l : List Nat} (hnz : ∀ m ∈ l, m ≠ 0) {n : Nat} {sol : List Nat}
    (h : sol ∈ emitted n l) : sol ∈ bruteForce 0 l :=
  (emitted_initial hnz n).subset h

/-- Two sublists of a duplicate-free list with the same members are equal. -/
theorem sublist_ext {l : List Nat} (hnd : l.Nodup) :
    ∀ {u t : List Nat}, List.Sublist u l → List.Sublist t l → (∀ x, x ∈ u ↔ x ∈ t) → u = t := by
  induction l with
  | nil =>
    intro u t hu ht _
    rw [List.sublist_nil.1 hu, List.sublist_nil.1 ht]
  | cons a as ih =>
    intro u t hu ht hmem
    have hnd' := List.nodup_cons.1 hnd
    rcases List.sublist_cons_iff.1 hu with hu' | ⟨u', rfl, hu'⟩
    · rcases List.sublist_cons_iff.1 ht with ht' | ⟨t', rfl, ht'⟩
      · exact ih hnd'.2 hu' ht' hmem
      · exact absurd (hu'.subset ((hmem a).2 (List.mem_cons_self _ _))) hnd'.1
    · rcases List.sublist_cons_iff.1 ht with ht' | ⟨t', rfl, ht'⟩
      · exact absurd (ht'.subset ((hmem a).1 (List.mem_cons_self _ _))) hnd'.1
      · congr 1
        apply ih hnd'.2 hu' ht'
        intro x
        constructor
        · intro hx
          have hxa : x ≠ a := fun e => hnd'.1 (e ▸ hu'.subset hx)
          rcases List.mem_cons.1 ((hmem x).1 (List.mem_cons_of_mem _ hx)) with e | h
          · exact absurd e hxa
          · exact h
        · intro hx
          have hxa : x ≠ a := fun e => hnd'.1 (e ▸ ht'.subset hx)
          rcases List.mem_cons.1 ((hmem x).2 (List.mem_cons_of_mem _ hx)) with e | h
          · exact absurd e hxa
          · exact h

theorem orAll_perm {u t : List Nat} (h : u.Perm t) : orAll u = orAll t := by
  induction h with
  | nil => rfl
  | cons x _ ih => rw [orAll_cons, orAll_cons, ih]
  | swap x y l =>
    simp only [orAll_cons]
    rw [← Nat.or_assoc, ← Nat.or_assoc, Nat.or_comm y x]
  | trans _ _ ih1 ih2 => rw [ih1, ih2]

/-- C1: on every dictionary and at every moment of the run, every sentence
printed so far consists of pairwise disjoint masks whose bitwise OR is
`ALL_LETTERS_MASK`. -/
theorem emitted_solution_is_heterogram (data : List Nat) (n : Nat) (sol : List Nat)
    (h : sol ∈ emitted n (level0 (wordList data))) :
    sol.Pairwise (fun a b => a &&& b = 0) ∧ orAll sol = ALL_LETTERS_MASK := by
  obtain ⟨_, _, _, hpw, hor⟩ := bruteForce_mem (emitted_mem_bruteForce (level0_ne_zero data) h)
  rw [Nat.zero_or] at hor
  exact ⟨hpw, hor⟩

/-- C2: on a level-0 list of distinct non-zero masks, for every set `c` of
masks of the list that are pairwise disjoint with OR equal to
`ALL_LETTERS_MASK`, the complete search prints exactly one ordering of `c`,
the one in increasing level-0 position, and prints it exactly once. -/
theorem search_emits_each_cover_once (l : List Nat) (hnd : l.Nodup) (hnz : ∀ m ∈ l, m ≠ 0)
    (fuel : Nat) (hfuel : 2 ^ (l.length + 1) ≤ fuel)
    (c : List Nat) (hc : c.Nodup) (hcl : ∀ m ∈ c, m ∈ l)
    (hpw : c.Pairwise (fun a b => a &&& b = 0)) (hor : orAll c = ALL_LETTERS_MASK) :
    ∃ out, search fuel l = some out ∧
      ∃ t, t.Perm c ∧ (t.map (position l)).Pairwise (fun a b => a < b) ∧ out.count t = 1 ∧
        ∀ u, u.Perm c → u ≠ t → u ∉ out := by
  refine ⟨bruteForce 0 l, search_eq_bruteForce hnz hfuel, l.filter (fun x => x ∈ c), ?_⟩
  have hsub : List.Sublist (l.filter (fun x => decide (x ∈ c))) l := List.filter_sublist _
  have hperm : (l.filter (fun x => decide (x ∈ c))).Perm c := by
    rw [List.perm_ext_iff_of_nodup (hnd.sublist hsub) hc]
    intro a
    simp only [List.mem_filter, decide_eq_true_eq]
    exact ⟨fun h => h.2, fun h => ⟨hcl a h, h⟩⟩
  have hpos := (position_increasing hnd).sublist hsub
  refine ⟨hperm, ?_, ?_, ?_⟩
  · rw [List.pairwise_map]
    exact hpos
  · apply bruteForce_count hnz hnd hsub
    · intro e
      rw [e] at hperm
      rw [List.nil_perm.1 hperm] at hor
      exact absurd hor (by decide)
    · intro x _
      exact Nat.zero_and x
    · exact (hperm.pairwise_iff (fun {a b} h => by rw [Nat.and_comm]; exact h)).2 hpw
    · rw [Nat.zero_or, orAll_perm hperm]
      exact hor
  · intro u hu hne hmem
    apply hne
    apply sublist_ext hnd (bruteForce_mem hmem).1 hsub
    intro x
    rw [hu.mem_iff, hperm.mem_iff]

/-- C4: on every dictionary, the masks of every printed sentence have strictly
increasing positions in the level-0 list. -/
theorem emitted_positions_increasing (data : List Nat) (n : Nat) (sol : List Nat)
    (h : sol ∈ emitted n (level0 (wordList data))) :
    (sol.map (position (level0 (wordList data)))).Pairwise (fun a b => a < b) := by
  have hsub := (bruteForce_mem (emitted_mem_bruteForce (level0_ne_zero data) h)).1
  rw [List.pairwise_map]
  exact (position_increasing (level0_nodup _)).sublist hsub

/-- C5: on every dictionary and at every moment of the run, the sentences
printed so far are in strictly increasing lexicographic order of their tuples
of level-0 positions. -/
theorem emitted_in_lex_order (data : List Nat) (n : Nat) :
    ((emitted n (level0 (wordList data))).map
      (fun sol => sol.map (position (level0 (wordList data))))).Pairwise lexLt := by
  rw [List.pairwise_map]
  exact (bruteForce_lex _ (position_increasing (level0_nodup _)) 0).sublist
    (emitted_initial (level0_ne_zero data) n).sublist

/-- The level-0 list of the dictionary `dictAbc` is `masksAbc`. -/
theorem level0_dictAbc : level0 (wordList dictAbc) = masksAbc := by decide

/-- Witness of C1: the dictionary `abcdefghijklm`, `nopqrstuvwxyz` after two
iterations of the main loop. -/
theorem emitted_solution_is_heterogram_witness :
    [8191, 67100672] ∈ emitted 2 (level0 (wordList dictS1)) ∧
    ([8191, 67100672].Pairwise (fun a b => a &&& b = 0) ∧
      orAll [8191, 67100672] = ALL_LETTERS_MASK) :=
  ⟨by decide, emitted_solution_is_heterogram dictS1 2 [8191, 67100672] (by decide)⟩

/-- Witness of C2: the level-0 list `masksAbc` and the cover made of the masks
of `fghijklmnopqrstuvwxyz`, `e`, `d`, `c`, `ab`, given in reverse order. -/
theorem search_emits_each_cover_once_witness :
    masksAbc.Nodup ∧ (∀ m ∈ masksAbc, m ≠ 0) ∧
    2 ^ (masksAbc.length + 1) ≤ 256 ∧
    [67108832, 16, 8, 4, 3].Nodup ∧
    (∀ m ∈ [67108832, 16, 8, 4, 3], m ∈ masksAbc) ∧
    [67108832, 16, 8, 4, 3].Pairwise (fun a b => a &&& b = 0) ∧
    orAll [67108832, 16, 8, 4, 3] = ALL_LETTERS_MASK ∧
    ∃ out, search 256 masksAbc = some out ∧
      ∃ t, t.Perm [67108832, 16, 8, 4, 3] ∧
        (t.map (position masksAbc)).Pairwise (fun a b => a < b) ∧
        out.count t = 1 ∧ ∀ u, u.Perm [67108832, 16, 8, 4, 3] → u ≠ t → u ∉ out :=
  ⟨by decide, by decide, by decide, by decide, by decide, by decide, by decide,
    search_emits_each_cover_once masksAbc (by decide) (by decide) 256
      (by decide) [67108832, 16, 8, 4, 3] (by decide) (by decide) (by decide) (by decide)⟩

/-- Witness of C4: the dictionary `abcdefghijklm`, `nopqrstuvwxyz`. -/
theorem emitted_positions_increasing_witness :
    [8191, 67100672] ∈ emitted 2 (level0 (wordList dictS1)) ∧
    ([8191, 67100672].map (position (level0 (wordList dictS1)))).Pairwise
      (fun a b => a < b) :=
  ⟨by decide, emitted_positions_increasing dictS1 2 [8191, 67100672] (by decide)⟩

/-! ## The renderer: claim C6 -/

theorem intercalate_cons_eq (sep t : List Nat) (ts : List (List Nat)) :
    List.intercalate sep (t :: ts) = t ++ (ts.map (fun u => sep ++ u)).flatten := by
  induction ts generalizing t with
  | nil => simp [List.intercalate]
  | cons u us ih =>
    have := ih u
    simp only [List.intercalate, List.intersperse_cons₂, List.flatten_cons, List.map_cons] at this ⊢
    rw [this, List.append_assoc]

theorem printGroup_found (i mask : Nat) (ws : List Word) (k : Nat) :
    printGroup i mask ws (k + 1) = ((anagrams ws mask).map (fun u => [124] ++ u)).flatten := by
  induction ws generalizing k with
  | nil => rfl
  | cons w ws ih =>
    unfold printGroup anagrams
    by_cases hw : w.mask = mask
    · rw [if_pos hw, if_pos (Nat.succ_ne_zero k), ih]
      simp [hw, anagrams]
    · rw [if_neg hw, ih]
      simp [hw, anagrams]

/-- The bytes written for one position whose group is not empty: a space
unless it is the first position, then the group joined by `'|'`. -/
theorem printGroup_zero (i mask : Nat) (ws : List Word) (h : anagrams ws mask ≠ []) :
    printGroup i mask ws 0 =
      (if i ≠ 0 then [32] else []) ++ List.intercalate [124] (anagrams ws mask) := by
  induction ws with
  | nil => exact absurd rfl h
  | cons w ws ih =>
    unfold printGroup
    by_cases hw : w.mask = mask
    · rw [if_pos hw, if_neg (by simp), printGroup_found]
      have : anagrams (w :: ws) mask = w.text :: anagrams ws mask := by
        simp [anagrams, hw]
      rw [this, intercalate_cons_eq, List.append_assoc]
    · have e : anagrams (w :: ws) mask = anagrams ws mask := by
        simp [anagrams, hw]
      rw [if_neg hw, e]
      exact ih (e ▸ h)

theorem printFrom_succ (wl : List Word) (i : Nat) (ms : List Nat)
    (h : ∀ m ∈ ms, anagrams wl m ≠ []) :
    printFrom wl (i + 1) ms =
      (ms.map (fun m => [32] ++ List.intercalate [124] (anagrams wl m))).flatten := by
  induction ms generalizing i with
  | nil => rfl
  | cons m ms ih =>
    unfold printFrom
    rw [printGroup_zero _ _ _ (h m (List.mem_cons_self _ _)), if_pos (Nat.succ_ne_zero i),
      ih _ (fun x hx => h x (List.mem_cons_of_mem _ hx))]
    simp

theorem printSentence_eq (wl : List Word) (sol : List Nat)
    (h : ∀ m ∈ sol, anagrams wl m ≠ []) :
    printSentence wl sol =
      List.intercalate [32] (sol.map (fun m => List.intercalate [124] (anagrams wl m))) := by
  cases sol with
  | nil => rfl
  | cons m ms =>
    unfold printSentence printFrom
    rw [printGroup_zero _ _ _ (h m (List.mem_cons_self _ _)), if_neg (by simp),
      printFrom_succ _ _ _ (fun x hx => h x (List.mem_cons_of_mem _ hx)), List.map_cons,
      intercalate_cons_eq, List.map_map]
    rfl

theorem anagrams_mem {wl : List Word} {m : Nat} {t : List Nat} (h : t ∈ anagrams wl m) :
    (⟨t, m⟩ : Word) ∈ wl := by
  unfold anagrams at h
  rw [List.mem_map] at h
  obtain ⟨w, hw, rfl⟩ := h
  rw [List.mem_filter] at hw
  have : w.mask = m := by simpa using hw.2
  rw [← this]
  exact hw.1

theorem anagrams_ne_nil {wl : List Word} {m : Nat} (h : m ∈ level0 wl) : anagrams wl m ≠ [] := by
  obtain ⟨w, hw, e⟩ := level0_mem h
  intro hnil
  have : w.text ∈ anagrams wl m := by
    unfold anagrams
    rw [List.mem_map]
    exact ⟨w, List.mem_filter.2 ⟨hw, by simpa using e⟩, rfl⟩
  rw [hnil] at this
  exact absurd this (List.not_mem_nil _)

/-- C6: for every sentence printed on any dictionary, the bytes written are the
anagram groups of its masks separated by single spaces, each group being the
texts of the word-list words with that mask, in word-list order, joined by
`'|'`; no group is empty and every word of a group is a word of the word list
with that mask. -/
theorem printed_sentence_format (data : List Nat) (n : Nat) (sol : List Nat)
    (h : sol ∈ emitted n (level0 (wordList data))) :
    printSentence (wordList data) sol =
      List.intercalate [32]
        (sol.map (fun m => List.intercalate [124] (anagrams (wordList data) m))) ∧
    ∀ m ∈ sol, anagrams (wordList data) m ≠ [] ∧
      ∀ t ∈ anagrams (wordList data) m, (⟨t, m⟩ : Word) ∈ wordList data := by
  have hsub := (bruteForce_mem (emitted_mem_bruteForce (level0_ne_zero data) h)).1
  have hne : ∀ m ∈ sol, anagrams (wordList data) m ≠ [] :=
    fun m hm => anagrams_ne_nil (hsub.subset hm)
  exact ⟨printSentence_eq _ _ hne, fun m hm => ⟨hne m hm, fun t ht => anagrams_mem ht⟩⟩

/-- Scenario S2: the sentence printed is `abcdefghijklm|mlkjihgfedcba nopqrstuvwxyz`. -/
theorem printSentence_dictS2 :
    emitted 2 (level0 (wordList dictS2)) = [[8191, 67100672]] ∧
    printSentence (wordList dictS2) [8191, 67100672] =
      [97, 98, 99, 100, 101, 102, 103, 104, 105, 106, 107, 108, 109, 124,
       109, 108, 107, 106, 105, 104, 103, 102, 101, 100, 99, 98, 97, 32,
       110, 111, 112, 113, 114, 115, 116, 117, 118, 119, 120, 121, 122] := by
  constructor <;> decide

/-- Witness of C6: the dictionary of scenario S2. -/
theorem printed_sentence_format_witness :
    [8191, 67100672] ∈ emitted 2 (level0 (wordList dictS2)) ∧
    (printSentence (wordList dictS2) [8191, 67100672] =
      List.intercalate [32]
        ([8191, 67100672].map (fun m => List.intercalate [124] (anagrams (wordList dictS2) m))) ∧
    ∀ m ∈ [8191, 67100672], anagrams (wordList dictS2) m ≠ [] ∧
      ∀ t ∈ anagrams (wordList dictS2) m, (⟨t, m⟩ : Word) ∈ wordList dictS2) :=
  ⟨by decide, printed_sentence_format dictS2 2 [8191, 67100672] (by decide)⟩

/-! ## The word normalizer: claims C7 to C10 -/

theorem and_bit_ne_zero_iff (mask k : Nat) : mask &&& 1 <<< k ≠ 0 ↔ mask.testBit k = true := by
  rw [Nat.one_shiftLeft]
  constructor
  · intro h
    by_contra hk
    apply h
    apply Nat.eq_of_testBit_eq
    intro j
    rw [Nat.testBit_and, Nat.testBit_two_pow, Nat.zero_testBit]
    by_cases e : k = j
    · subst e
      simp [hk]
    · simp [e]
  · intro h e
    have := congrArg (fun n => n.testBit k) e
    simp [h, Nat.testBit_two_pow] at this

theorem testBit_or_bit (mask k i : Nat) :
    (mask ||| 1 <<< k).testBit i = (mask.testBit i || decide (k = i)) := by
  rw [Nat.one_shiftLeft, Nat.testBit_or, Nat.testBit_two_pow]

theorem letters_cons (c : Nat) (w : List Nat) :
    letters (c :: w) = if isLetter (tolower c) then tolower c :: letters w else letters w := by
  unfold letters
  rw [List.map_cons, List.filter_cons]

theorem isLetter_iff (c : Nat) : isLetter c = true ↔ 97 ≤ c ∧ c ≤ 122 := by
  unfold isLetter
  simp

/-- The mask loop on a word whose letters are new and distinct: the word is
lowercased to its end and the mask gains the bit of every letter. -/
theorem maskLoop_distinct (w : List Nat) :
    ∀ mask : Nat, (∀ c ∈ letters w, mask.testBit (c - 97) = false) → (letters w).Nodup →
      (maskLoop w mask).1 = w.map tolower ∧
      ∀ i, (maskLoop w mask).2.testBit i = (mask.testBit i || decide (97 + i ∈ letters w)) := by
  induction w with
  | nil => intro mask _ _; simp [maskLoop, letters]
  | cons ch rest ih =>
    intro mask hnew hnd
    rw [letters_cons] at hnew hnd
    unfold maskLoop
    by_cases hl : 97 ≤ tolower ch ∧ tolower ch ≤ 122
    · have hl' : isLetter (tolower ch) = true := (isLetter_iff _).2 hl
      rw [if_pos hl'] at hnew hnd
      have hbit : ¬ (mask &&& 1 <<< (tolower ch - 97) ≠ 0) := by
        rw [and_bit_ne_zero_iff]
        rw [hnew _ (List.mem_cons_self _ _)]
        simp
      have hnd' := List.nodup_cons.1 hnd
      have hrest : ∀ c ∈ letters rest, (mask ||| 1 <<< (tolower ch - 97)).testBit (c - 97) = false := by
        intro c hc
        rw [testBit_or_bit, hnew c (List.mem_cons_of_mem _ hc)]
        have hcl : 97 ≤ c := by
          have := (List.mem_filter.1 hc).2
          exact ((isLetter_iff c).1 this).1
        have : tolower ch ≠ c := fun e => hnd'.1 (e ▸ hc)
        have : tolower ch - 97 ≠ c - 97 := by omega
        simp [this]
      obtain ⟨h1, h2⟩ := ih _ hrest hnd'.2
      simp only [if_pos hl, if_neg hbit]
      refine ⟨by rw [h1, List.map_cons], ?_⟩
      intro i
      rw [h2, testBit_or_bit, letters_cons, if_pos hl', Bool.or_assoc]
      congr 1
      by_cases e : tolower ch - 97 = i
      · have : 97 + i = tolower ch := by omega
        simp [e, this]
      · have : ¬ (97 + i = tolower ch) := by omega
        simp [e, this]
    · have hl' : ¬ (isLetter (tolower ch) = true) := fun h => hl ((isLetter_iff _).1 h)
      rw [if_neg hl'] at hnew hnd
      obtain ⟨h1, h2⟩ := ih _ hnew hnd
      simp only [if_neg hl]
      refine ⟨by rw [h1, List.map_cons], ?_⟩
      intro i
      rw [h2, letters_cons, if_neg hl']

/-- The mask loop on a word with a letter already in the mask or occurring
twice: the mask is 0. -/
theorem maskLoop_clash (w : List Nat) :
    ∀ mask : Nat, ¬ ((∀ c ∈ letters w, mask.testBit (c - 97) = false) ∧ (letters w).Nodup) →
      (maskLoop w mask).2 = 0 := by
  induction w with
  | nil =>
    intro mask h
    exact absurd ⟨fun c hc => absurd hc (List.not_mem_nil _), List.nodup_nil⟩ h
  | cons ch rest ih =>
    intro mask h
    rw [letters_cons] at h
    unfold maskLoop
    by_cases hl : 97 ≤ tolower ch ∧ tolower ch ≤ 122
    · have hl' : isLetter (tolower ch) = true := (isLetter_iff _).2 hl
      rw [if_pos hl'] at h
      simp only [if_pos hl]
      by_cases hbit : mask &&& 1 <<< (tolower ch - 97) ≠ 0
      · rw [if_pos hbit]
      · rw [if_neg hbit]
        apply ih
        rintro ⟨hnew, hnd⟩
        apply h
        rw [and_bit_ne_zero_iff] at hbit
        have hb : mask.testBit (tolower ch - 97) = false := by simpa using hbit
        have hnew' : ∀ c ∈ letters rest, mask.testBit (c - 97) = false := by
          intro c hc
          have := hnew c hc
          rw [testBit_or_bit] at this
          exact (Bool.or_eq_false_iff.1 this).1
        refine ⟨?_, List.nodup_cons.2 ⟨?_, hnd⟩⟩
        · intro c hc
          rcases List.mem_cons.1 hc with e | hc
          · rw [e]; exact hb
          · exact hnew' c hc
        · intro hmem
          have := hnew _ hmem
          rw [testBit_or_bit] at this
          simp at this
    · have hl' : ¬ (isLetter (tolower ch) = true) := fun h => hl ((isLetter_iff _).1 h)
      rw [if_neg hl'] at h
      simp only [if_neg hl]
      exact ih mask h

theorem wordOf_distinct {w : List Nat} (h : (letters w).Nodup) :
    (wordOf w).text = w.map tolower ∧
    ∀ i, (wordOf w).mask.testBit i = decide (97 + i ∈ letters w) := by
  have := maskLoop_distinct w 0 (fun _ _ => Nat.zero_testBit _) h
  refine ⟨this.1, fun i => ?_⟩
  show (maskLoop w 0).2.testBit i = _
  rw [this.2 i, Nat.zero_testBit, Bool.false_or]

theorem wordOf_clash {w : List Nat} (h : ¬ (letters w).Nodup) : (wordOf w).mask = 0 :=
  maskLoop_clash w 0 (fun hc => h hc.2)

theorem mem_letters_bounds {w : List Nat} {c : Nat} (h : c ∈ letters w) : 97 ≤ c ∧ c ≤ 122 :=
  (isLetter_iff c).1 (List.mem_filter.1 h).2

/-- The mask of a word is not 0 exactly when the word has a letter and no
letter twice. -/
theorem wordOf_mask_ne_zero_iff (w : List Nat) :
    (wordOf w).mask ≠ 0 ↔ letters w ≠ [] ∧ (letters w).Nodup := by
  constructor
  · intro h
    have hnd : (letters w).Nodup := by
      by_contra hc
      exact h (wordOf_clash hc)
    refine ⟨?_, hnd⟩
    intro he
    apply h
    apply Nat.eq_of_testBit_eq
    intro i
    rw [(wordOf_distinct hnd).2 i, he, Nat.zero_testBit]
    simp
  · rintro ⟨hne, hnd⟩ h0
    obtain ⟨c, hc⟩ := List.exists_mem_of_ne_nil _ hne
    have hb := mem_letters_bounds hc
    have := (wordOf_distinct hnd).2 (c - 97)
    rw [h0, Nat.zero_testBit] at this
    have e : 97 + (c - 97) = c := by omega
    rw [e] at this
    simp [hc] at this

theorem compactLoop_mem_iff (ws : List Word) :
    ∀ (kept : List Word) (x : Word),
      x ∈ compactLoop ws kept ↔ x ∈ kept ∨ (x ∈ ws ∧ x.mask ≠ 0) := by
  induction ws with
  | nil =>
    intro kept x
    simp [compactLoop]
  | cons a as ih =>
    intro kept x
    unfold compactLoop
    by_cases h0 : a.mask = 0
    · rw [if_pos h0, ih]
      constructor
      · rintro (h | ⟨h, hx⟩)
        · exact Or.inl h
        · exact Or.inr ⟨List.mem_cons_of_mem _ h, hx⟩
      · rintro (h | ⟨h, hx⟩)
        · exact Or.inl h
        · rcases List.mem_cons.1 h with e | h
          · rw [e] at hx; exact absurd h0 hx
          · exact Or.inr ⟨h, hx⟩
    · rw [if_neg h0]
      cases kept with
      | nil =>
        simp only [ih, List.mem_cons, List.not_mem_nil, false_or, or_false]
        constructor
        · rintro (e | ⟨h, hx⟩)
          · rw [e]; exact ⟨Or.inl rfl, h0⟩
          · exact ⟨Or.inr h, hx⟩
        · rintro ⟨e | h, hx⟩
          · exact Or.inl e
          · exact Or.inr ⟨h, hx⟩
      | cons p ps =>
        by_cases hd : a.mask = p.mask ∧ strcmpEq a.text p.text = true
        · have hap : a = p := by
            have ht : a.text = p.text := by
              have := hd.2
              unfold strcmpEq at this
              simpa using this
            cases a; cases p
            simp only [Word.mk.injEq]
            exact ⟨ht, hd.1⟩
          simp only [if_pos hd, ih, List.mem_cons]
          constructor
          · rintro (h | ⟨h, hx⟩)
            · exact Or.inl h
            · exact Or.inr ⟨Or.inr h, hx⟩
          · rintro (h | ⟨e | h, hx⟩)
            · exact Or.inl h
            · exact Or.inl (Or.inl (e.trans hap))
            · exact Or.inr ⟨h, hx⟩
        · simp only [if_neg hd, ih, List.mem_cons]
          constructor
          · rintro ((e | h) | ⟨h, hx⟩)
            · rw [e]; exact Or.inr ⟨Or.inl rfl, h0⟩
            · exact Or.inl h
            · exact Or.inr ⟨Or.inr h, hx⟩
          · rintro (h | ⟨e | h, hx⟩)
            · exact Or.inl (Or.inr h)
            · exact Or.inl (Or.inl e)
            · exact Or.inr ⟨h, hx⟩

theorem insertWord_mem (w : List Nat) (l : List (List Nat)) (x : List Nat) :
    x ∈ insertWord w l ↔ x = w ∨ x ∈ l := by
  induction l with
  | nil => simp [insertWord]
  | cons a as ih =>
    unfold insertWord
    split
    · simp
    · simp only [List.mem_cons, ih]
      constructor
      · rintro (h | h | h)
        · exact Or.inr (Or.inl h)
        · exact Or.inl h
        · exact Or.inr (Or.inr h)
      · rintro (h | h | h)
        · exact Or.inr (Or.inl h)
        · exact Or.inl h
        · exact Or.inr (Or.inr h)

theorem qsortWords_mem (l : List (List Nat)) (x : List Nat) : x ∈ qsortWords l ↔ x ∈ l := by
  induction l with
  | nil => simp [qsortWords]
  | cons a as ih =>
    unfold qsortWords
    rw [insertWord_mem, ih, List.mem_cons]

/-- The words of the word list are the lines of the dictionary with a non-zero
mask, as the mask loop leaves them. -/
theorem wordList_mem_iff (data : List Nat) (x : Word) :
    x ∈ wordList data ↔ ∃ line ∈ splitWords data, wordOf line = x ∧ x.mask ≠ 0 := by
  unfold wordList
  rw [compactLoop_mem_iff]
  simp only [List.not_mem_nil, false_or, List.mem_map, qsortWords_mem]
  constructor
  · rintro ⟨⟨line, hl, e⟩, hx⟩
    exact ⟨line, hl, e, hx⟩
  · rintro ⟨line, hl, e, hx⟩
    exact ⟨⟨line, hl, e⟩, hx⟩

theorem letters_eq_filter (w : List Nat) : letters w = (w.map tolower).filter isLetter := rfl

/-- C7: for every line of every dictionary, the lowercased line is a text of the
word list exactly when it has at least one letter `a`-`z` and no letter `a`-`z`
twice; and for every word of the word list and every `i < 26`, bit `i` of its
mask is set exactly when the letter `'a' + i` occurs in its text. -/
theorem normalizer_keeps_heterogram_words (data : List Nat) :
    (∀ line ∈ splitWords data,
      (line.map tolower ∈ (wordList data).map (fun w => w.text) ↔
        letters line ≠ [] ∧ (letters line).Nodup)) ∧
    (∀ w ∈ wordList data, ∀ i, i < 26 → (w.mask.testBit i = true ↔ 97 + i ∈ w.text)) := by
  constructor
  · intro line hline
    constructor
    · intro h
      rw [List.mem_map] at h
      obtain ⟨w, hw, ht⟩ := h
      obtain ⟨line', _, rfl, hm⟩ := (wordList_mem_iff data w).1 hw
      have hc := (wordOf_mask_ne_zero_iff line').1 hm
      have hl : letters line' = letters line := by
        rw [letters_eq_filter, letters_eq_filter, ← (wordOf_distinct hc.2).1, ht]
      rw [← hl]
      exact hc
    · intro hc
      rw [List.mem_map]
      refine ⟨wordOf line, ?_, (wordOf_distinct hc.2).1⟩
      exact (wordList_mem_iff data _).2 ⟨line, hline, rfl, (wordOf_mask_ne_zero_iff line).2 hc⟩
  · intro w hw i hi
    obtain ⟨line, _, rfl, hm⟩ := (wordList_mem_iff data w).1 hw
    have hc := (wordOf_mask_ne_zero_iff line).1 hm
    have hd := wordOf_distinct hc.2
    rw [hd.2 i, hd.1, decide_eq_true_eq, letters_eq_filter, List.mem_filter, isLetter_iff]
    constructor
    · intro h; exact h.1
    · intro h; exact ⟨h, by omega, by omega⟩

/-- Witness of C7: the dictionary with the lines `Ab`, `B`, `ab`; the line `Ab`
is kept as `ab`, whose mask has bit 1 set for the letter `b`. -/
theorem normalizer_keeps_heterogram_words_witness :
    ([65, 98].map tolower ∈ (wordList dictMixedCase).map (fun w => w.text) ↔
      letters [65, 98] ≠ [] ∧ (letters [65, 98]).Nodup) ∧
    ((3 : Nat).testBit 1 = true ↔ 97 + 1 ∈ [97, 98]) :=
  ⟨(normalizer_keeps_heterogram_words dictMixedCase).1 [65, 98] (by decide),
   (normalizer_keeps_heterogram_words dictMixedCase).2 ⟨[97, 98], 3⟩ (by decide) 1 (by decide)⟩

/-- Code at the failing input of C8: with the lines `Ab`, `B`, `ab` the word
list is `ab`, `b`, `ab`, so the text `ab` occurs twice. -/
theorem wordList_dictMixedCase :
    wordList dictMixedCase = [⟨[97, 98], 3⟩, ⟨[98], 2⟩, ⟨[97, 98], 3⟩] ∧
    ¬ ((wordList dictMixedCase).map (fun w => w.text)).Nodup := by
  constructor <;> decide

/-- Code at the failing input of C9: with the lines `B`, `a` the word list is
`b`, `a`, which is not in `strcmp` order. -/
theorem wordList_dictUpperFirst :
    wordList dictUpperFirst = [⟨[98], 2⟩, ⟨[97], 1⟩] ∧
    ¬ ((wordList dictUpperFirst).map (fun w => w.text)).Pairwise
        (fun a b => strcmpLe a b = true) := by
  constructor <;> decide

theorem count_bits_eq_length {L : List Nat} (hnd : L.Nodup) (hb : ∀ c ∈ L, 97 ≤ c ∧ c ≤ 122) :
    ((List.range 26).filter (fun i => decide (97 + i ∈ L))).length = L.length := by
  have hperm : (((List.range 26).filter (fun i => decide (97 + i ∈ L))).map (fun i => 97 + i)).Perm L := by
    rw [List.perm_ext_iff_of_nodup _ hnd]
    · intro x
      simp only [List.mem_map, List.mem_filter, List.mem_range, decide_eq_true_eq]
      constructor
      · rintro ⟨i, ⟨_, hi⟩, rfl⟩
        exact hi
      · intro hx
        have := hb x hx
        refine ⟨x - 97, ⟨by omega, ?_⟩, by omega⟩
        have e : 97 + (x - 97) = x := by omega
        rw [e]; exact hx
    · apply List.Nodup.map
      · intro a b h
        simp only at h
        omega
      · exact (List.nodup_range 26).filter _
  rw [← hperm.length_eq, List.length_map]

/-- Counterexample to C10 as stated: the word `a-b` has a mask with two bits
and a text of three bytes. -/
theorem popcount_ne_length :
    ¬ (∀ w ∈ wordList dictHyphen, popcount w.mask = w.text.length) := by
  decide

/-- C10 as amended: for every word of the word list of every dictionary, the
number of bits of the mask is the number of letters `a`-`z` of the text; it is
the length of the text when the text has no other character. -/
theorem popcount_eq_letter_count (data : List Nat) (w : Word) (h : w ∈ wordList data) :
    popcount w.mask = (w.text.filter isLetter).length ∧
    ((∀ c ∈ w.text, isLetter c = true) → popcount w.mask = w.text.length) := by
  obtain ⟨line, _, rfl, hm⟩ := (wordList_mem_iff data w).1 h
  have hc := (wordOf_mask_ne_zero_iff line).1 hm
  have hd := wordOf_distinct hc.2
  have h1 : popcount (wordOf line).mask = ((wordOf line).text.filter isLetter).length := by
    unfold popcount
    rw [hd.1, ← letters_eq_filter, ← count_bits_eq_length hc.2 (fun c hc' => mem_letters_bounds hc')]
    congr 1
    apply List.filter_congr
    intro i _
    exact hd.2 i
  refine ⟨h1, fun hall => ?_⟩
  rw [h1, List.filter_eq_self.2 hall]

/-- Witness of C10 as amended: the word `a-b`. -/
theorem popcount_eq_letter_count_witness :
    (⟨[97, 45, 98], 3⟩ : Word) ∈ wordList dictHyphen ∧
    (popcount 3 = (([97, 45, 98] : List Nat).filter isLetter).length ∧
    ((∀ c ∈ ([97, 45, 98] : List Nat), isLetter c = true) →
      popcount 3 = ([97, 45, 98] : List Nat).length)) :=
  ⟨by decide, popcount_eq_letter_count dictHyphen ⟨[97, 45, 98], 3⟩ (by decide)⟩

/-! ### The model of the splitting loop and of `qsort` -/

theorem scanLine_rest_length (l : List Nat) (b : Bool) :
    (scanLine l b).2.length ≤ l.length := by
  induction l generalizing b with
  | nil => simp [scanLine]
  | cons c rest ih =>
    unfold scanLine
    split
    · exact Nat.le_succ_of_le (ih false)
    · split
      · simp
      · exact Nat.le_succ_of_le (ih b)

/-- Every iteration of the splitting loop consumes at least one byte, so the
fuel given in `splitWords` is enough: more fuel gives the same words. -/
theorem splitWordsAux_fuel (fuel : Nat) :
    ∀ l : List Nat, l.length ≤ fuel → splitWordsAux fuel l = splitWordsAux l.length l := by
  induction fuel using Nat.strong_induction_on with
  | _ fuel ih =>
    intro l hl
    cases l with
    | nil => cases fuel <;> rfl
    | cons c rest =>
      cases fuel with
      | zero => simp at hl
      | succ fuel =>
        have hr := scanLine_rest_length (c :: rest) true
        have hr' : (scanLine (c :: rest) true).2.length ≤ rest.length := by
          unfold scanLine at hr ⊢
          split
          · exact scanLine_rest_length _ _
          · split
            · simp
            · exact scanLine_rest_length _ _
        simp only [splitWordsAux, List.length_cons]
        simp only [List.length_cons] at hl
        rw [ih fuel (Nat.lt_succ_self _) _ (by omega),
          ih rest.length (by omega) _ hr']

theorem strcmpLe_total (a : List Nat) : ∀ b, strcmpLe a b = true ∨ strcmpLe b a = true := by
  induction a with
  | nil => intro b; left; rfl
  | cons x xs ih =>
    intro b
    cases b with
    | nil => right; rfl
    | cons y ys =>
      simp only [strcmpLe]
      by_cases h1 : x < y
      · left; simp [h1]
      · by_cases h2 : y < x
        · right; simp [h2]
        · simp only [h1, h2, if_false]
          exact ih ys

theorem strcmpLe_trans (a : List Nat) :
    ∀ b c, strcmpLe a b = true → strcmpLe b c = true → strcmpLe a c = true := by
  induction a with
  | nil => intro b c _ _; rfl
  | cons x xs ih =>
    intro b c hab hbc
    cases b with
    | nil => simp [strcmpLe] at hab
    | cons y ys =>
      cases c with
      | nil => simp [strcmpLe] at hbc
      | cons z zs =>
        simp only [strcmpLe] at hab hbc ⊢
        by_cases h1 : x < y
        · by_cases h2 : y < z
          · simp [lt_trans h1 h2]
          · by_cases h3 : z < y
            · simp [h2, h3] at hbc
            · have : y = z := by omega
              subst this
              simp [h1]
        · by_cases h1' : y < x
          · simp [h1, h1'] at hab
          · have hxy : x = y := by omega
            subst hxy
            simp only [h1, if_false] at hab
            by_cases h2 : x < z
            · simp [h2]
            · by_cases h3 : z < x
              · simp [h2, h3] at hbc
              · simp only [h2, h3, if_false] at hbc ⊢
                exact ih ys zs hab hbc

theorem insertWord_sorted (w : List Nat) (l : List (List Nat))
    (h : l.Pairwise (fun a b => strcmpLe a b = true)) :
    (insertWord w l).Pairwise (fun a b => strcmpLe a b = true) := by
  induction l with
  | nil => simp [insertWord]
  | cons x xs ih =>
    rw [List.pairwise_cons] at h
    unfold insertWord
    by_cases hwx : strcmpLe w x = true
    · rw [if_pos hwx, List.pairwise_cons]
      refine ⟨?_, List.pairwise_cons.2 h⟩
      intro y hy
      rcases List.mem_cons.1 hy with e | hy
      · rw [e]; exact hwx
      · exact strcmpLe_trans _ _ _ hwx (h.1 y hy)
    · rw [if_neg hwx, List.pairwise_cons]
      refine ⟨?_, ih h.2⟩
      intro y hy
      rcases (insertWord_mem w xs y).1 hy with e | hy
      · rw [e]
        exact (strcmpLe_total w x).resolve_left hwx
      · exact h.1 y hy

/-- The model of `qsort` returns its argument in `strcmp` order. -/
theorem qsortWords_sorted (l : List (List Nat)) :
    (qsortWords l).Pairwise (fun a b => strcmpLe a b = true) := by
  induction l with
  | nil => simp [qsortWords]
  | cons w ws ih => exact insertWord_sorted w _ ih

theorem insertWord_perm (w : List Nat) (l : List (List Nat)) : (insertWord w l).Perm (w :: l) := by
  induction l with
  | nil => exact List.Perm.refl _
  | cons x xs ih =>
    unfold insertWord
    split
    · exact List.Perm.refl _
    · exact (List.Perm.cons x ih).trans (List.Perm.swap w x xs)

/-- The model of `qsort` returns a permutation of its argument. -/
theorem qsortWords_perm (l : List (List Nat)) : (qsortWords l).Perm l := by
  induction l with
  | nil => exact List.Perm.refl _
  | cons w ws ih => exact (insertWord_perm w _).trans (List.Perm.cons w ih)

/-! ### The search without the memo table lists the same solutions -/

/-- On an all-zero memo table the loop without memo does what the loop with
memo does, the table apart. -/
theorem stepNoMemo_eq {s : SearchState} (h0 : s.mask_completed_length = fun _ => 0) :
    stepNoMemo s = (step s).map clearMemo := by
  by_cases hge : nextIndex s ≥ (s.level_stop_index s.level : Int)
  · by_cases hl : s.level = 0
    · rw [step_halt hge hl]
      unfold nextIndex at hge
      simp only [stepNoMemo, if_pos hge, if_pos hl, Option.map_none']
    · rw [step_pop hge hl]
      unfold nextIndex at hge ⊢
      simp only [stepNoMemo, if_pos hge, if_neg hl, Option.map_some', clearMemo, h0]
  · have hlt := not_le.1 hge
    by_cases hfull : nextMask s = ALL_LETTERS_MASK
    · rw [step_solution hlt hfull]
      unfold nextMask nextWord nextIndex at *
      simp only [stepNoMemo, if_neg hge, Nat.add_sub_cancel, if_pos hfull, Option.map_some',
        clearMemo, h0]
    · have hprev : s.mask_completed_length (nextMask s) = 0 ∨
          s.mask_completed_length (nextMask s) < (nextDict s).length := by
        left; rw [h0]
      rw [step_push hlt hfull hprev]
      have e : s.mask_completed_length (nextMask s) = 0 := by rw [h0]
      rw [e, Nat.sub_zero]
      unfold nextDict nextMask nextWord nextIndex at *
      simp only [stepNoMemo, if_neg hge, Nat.add_sub_cancel, if_neg hfull, Option.map_some',
        clearMemo, h0]

theorem clearMemo_same (s : SearchState) (j : Nat) : SameAt s (clearMemo s) j :=
  ⟨rfl, rfl, rfl⟩

theorem Inv.clearMemo {l : List Nat} {s : SearchState} (h : Inv l s) : Inv l (clearMemo s) := by
  constructor
  · exact h.mask0
  · exact h.dict0
  · exact h.top
  · intro i hi
    rw [← chosen_congr (clearMemo_same s i)]
    exact h.chain i hi
  · exact h.subs
  · exact h.suffix
  · exact h.trunc
  · intro i d _ hm
    exact absurd rfl hm
  · intro T _ hm
    exact absurd rfl hm
  · show s.solutions ++ liftTo (Pangram.clearMemo s) 0 s.level (later (Pangram.clearMemo s) s.level) = _
    rw [← later_congr (clearMemo_same s s.level),
      ← liftTo_congr 0 s.level (fun j _ => clearMemo_same s j)]
    exact h.out

theorem measure_clearMemo (s : SearchState) : measure (clearMemo s) = measure s := by
  unfold measure
  exact measureBelow_congr _ (fun _ _ => rfl)

/-- With enough fuel the loop without the memo table reaches its `break`,
having printed what the reference enumerator lists. -/
theorem Inv.mainLoopNoMemo_spec {l : List Nat} (hnz : ∀ m ∈ l, m ≠ 0) (fuel : Nat) :
    ∀ s, Inv l s → (s.mask_completed_length = fun _ => 0) → measure s < fuel →
      ∃ t, mainLoopNoMemo fuel s = some t ∧ t.solutions = bruteForce 0 l := by
  induction fuel with
  | zero => intro s _ _ hm; exact absurd hm (Nat.not_lt_zero _)
  | succ fuel ih =>
    intro s h h0 hm
    unfold Pangram.mainLoopNoMemo
    have hstep := stepNoMemo_eq h0
    cases hs : Pangram.step s with
    | none =>
      rw [hs] at hstep
      rw [hstep]
      refine ⟨s, rfl, ?_⟩
      have hn := step_none hs
      have ho := h.out
      rw [h.later_nil hn.1, hn.2] at ho
      simpa [liftTo] using ho
    | some t =>
      rw [hs] at hstep
      rw [hstep]
      have hlt := h.measure_step hs
      exact ih (Pangram.clearMemo t) (h.step hnz hs).clearMemo rfl
        (by rw [measure_clearMemo]; omega)

theorem searchNoMemo_eq_bruteForce {l : List Nat} (hnz : ∀ m ∈ l, m ≠ 0) {fuel : Nat}
    (hfuel : 2 ^ (l.length + 1) ≤ fuel) : searchNoMemo fuel l = some (bruteForce 0 l) := by
  obtain ⟨t, ht, hsol⟩ := Inv.mainLoopNoMemo_spec hnz fuel _ (Inv.init l) rfl
    (lt_of_lt_of_le (measure_init l) hfuel)
  unfold searchNoMemo
  rw [ht]
  simp [hsol]

/-- C3: on every level-0 list (its masks are not zero), the complete memoized
search prints exactly the sequence of solutions printed by the same
depth-first search without the memo table, which is the sequence listed by the
brute-force reference enumerator; in particular the solution counts agree. -/
theorem search_matches_reference (l : List Nat) (hnz : ∀ m ∈ l, m ≠ 0)
    (fuel : Nat) (hfuel : 2 ^ (l.length + 1) ≤ fuel) :
    search fuel l = searchNoMemo fuel l ∧
    search fuel l = some (bruteForce 0 l) ∧
    (search fuel l).map List.length = (searchNoMemo fuel l).map List.length := by
  rw [search_eq_bruteForce hnz hfuel, searchNoMemo_eq_bruteForce hnz hfuel]
  exact ⟨rfl, rfl, rfl⟩

/-- Witness of C3: in the level-0 list `masksAbc` the sentence mask `abc` is
reached by `a bc` with a dict of two words and then by `ab c` with a dict of
three. -/
theorem search_matches_reference_witness :
    (∀ m ∈ masksAbc, m ≠ 0) ∧ 2 ^ (masksAbc.length + 1) ≤ 256 ∧
    (search 256 masksAbc = searchNoMemo 256 masksAbc ∧
      search 256 masksAbc = some (bruteForce 0 masksAbc) ∧
      (search 256 masksAbc).map List.length = (searchNoMemo 256 masksAbc).map List.length) :=
  ⟨by decide, by decide, search_matches_reference masksAbc (by decide) 256 (by decide)⟩

/-! ### Dictionaries without upper-case letters

The defect behind C8 and C9 needs an upper-case letter: without one the texts
of the word list are in strict `strcmp` order. -/

theorem strcmpLe_antisymm (a : List Nat) :
    ∀ b, strcmpLe a b = true → strcmpLe b a = true → a = b := by
  induction a with
  | nil =>
    intro b _ hba
    cases b with
    | nil => rfl
    | cons y ys => simp [strcmpLe] at hba
  | cons x xs ih =>
    intro b hab hba
    cases b with
    | nil => simp [strcmpLe] at hab
    | cons y ys =>
      simp only [strcmpLe] at hab hba
      by_cases h1 : x < y
      · have h2 : ¬ y < x := by omega
        simp [h1, h2] at hba
      · by_cases h2 : y < x
        · simp [h1, h2] at hab
        · have hxy : x = y := by omega
          subst hxy
          simp only [h1, if_false] at hab hba
          rw [ih ys hab hba]

theorem scanLine_subset (l : List Nat) (b : Bool) :
    ∀ c, (c ∈ (scanLine l b).1 ∨ c ∈ (scanLine l b).2) → c ∈ l := by
  induction l generalizing b with
  | nil => intro c h; simp [scanLine] at h
  | cons x rest ih =>
    intro c h
    unfold scanLine at h
    split at h
    · exact List.mem_cons_of_mem _ (ih false c h)
    · split at h
      · rcases h with h | h
        · simp at h
        · exact List.mem_cons_of_mem _ h
      · rcases h with h | h
        · split at h
          · rcases List.mem_cons.1 h with e | h
            · rw [e]; exact List.mem_cons_self _ _
            · exact List.mem_cons_of_mem _ (ih b c (Or.inl h))
          · exact List.mem_cons_of_mem _ (ih b c (Or.inl h))
        · exact List.mem_cons_of_mem _ (ih b c (Or.inr h))

theorem splitWordsAux_subset (fuel : Nat) :
    ∀ l : List Nat, ∀ w ∈ splitWordsAux fuel l, ∀ c ∈ w, c ∈ l := by
  induction fuel with
  | zero => intro l w hw; simp [splitWordsAux] at hw
  | succ fuel ih =>
    intro l w hw c hc
    cases l with
    | nil => simp [splitWordsAux] at hw
    | cons x rest =>
      simp only [splitWordsAux, List.mem_cons] at hw
      rcases hw with e | hw
      · rw [e] at hc
        exact scanLine_subset _ _ c (Or.inl hc)
      · exact scanLine_subset _ _ c (Or.inr (ih _ w hw c hc))

theorem splitWords_subset (data : List Nat) : ∀ w ∈ splitWords data, ∀ c ∈ w, c ∈ data := by
  intro w hw c hc
  have := splitWordsAux_subset _ _ w hw c hc
  exact (List.takeWhile_sublist _).subset this

theorem maskLoop_text_of_lower (w : List Nat) (hw : ∀ c ∈ w, ¬ (65 ≤ c ∧ c ≤ 90)) :
    ∀ mask, (maskLoop w mask).1 = w := by
  induction w with
  | nil => intro mask; rfl
  | cons ch rest ih =>
    intro mask
    have hch : tolower ch = ch := by
      unfold tolower
      rw [if_neg (hw ch (List.mem_cons_self _ _))]
    have ih' := ih (fun c hc => hw c (List.mem_cons_of_mem _ hc))
    unfold maskLoop
    simp only [hch]
    split
    · split
      · rfl
      · rw [ih']
    · rw [ih']

/-- The compaction loop on words in `strcmp` order whose mask is determined by
their text leaves texts in strict `strcmp` order. -/
theorem compactLoop_strict (ws : List Word) :
    ∀ kept : List Word,
      (∀ w ∈ kept.reverse ++ ws, w = wordOf w.text) →
      (kept.reverse ++ ws).Pairwise (fun a b => strcmpLe a.text b.text = true) →
      kept.reverse.Pairwise (fun a b => a.text ≠ b.text) →
      (compactLoop ws kept).Pairwise
        (fun a b => strcmpLe a.text b.text = true ∧ a.text ≠ b.text) := by
  induction ws with
  | nil =>
    intro kept _ hs hk
    simp only [List.append_nil] at hs
    unfold compactLoop
    exact hs.and hk
  | cons w ws ih =>
    intro kept hdet hs hk
    have hsub : List.Sublist (kept.reverse ++ ws) (kept.reverse ++ w :: ws) :=
      List.Sublist.append_left (List.sublist_cons_self w ws) _
    unfold compactLoop
    split
    · exact ih kept (fun x hx => hdet x (hsub.subset hx)) (hs.sublist hsub) hk
    · cases kept with
      | nil =>
        simp only
        refine ih [w] ?_ ?_ ?_
        · simpa using hdet
        · simpa using hs
        · simp
      | cons p ps =>
        simp only
        split
        · exact ih (p :: ps) (fun x hx => hdet x (hsub.subset hx)) (hs.sublist hsub) hk
        · rename_i hne
          have hassoc : (w :: p :: ps).reverse ++ ws = (p :: ps).reverse ++ w :: ws := by
            simp
          refine ih (w :: p :: ps) ?_ ?_ ?_
          · rw [hassoc]; exact hdet
          · rw [hassoc]; exact hs
          · rw [List.reverse_cons, List.pairwise_append]
            refine ⟨hk, by simp, ?_⟩
            intro x hx y hy
            rw [List.mem_singleton] at hy
            subst hy
            have hpw : p.text ≠ y.text := by
              intro e
              apply hne
              have h1 := hdet p (by simp)
              have h2 := hdet y (by simp)
              refine ⟨?_, ?_⟩
              · rw [h1, h2, e]
              · unfold strcmpEq
                simp [e]
            rw [List.reverse_cons, List.mem_append, List.mem_singleton] at hx
            rcases hx with hx | hx
            · intro e
              rw [List.reverse_cons, List.append_assoc] at hs
              have hs' := List.pairwise_append.1 hs
              have hxp : strcmpLe x.text p.text = true :=
                hs'.2.2 x hx p (by simp)
              have hpy : strcmpLe p.text y.text = true := by
                have := (List.pairwise_append.1 hs'.2.1).2.2 p (by simp) y (by simp)
                exact this
              have hxneq : x.text ≠ p.text := by
                rw [List.reverse_cons] at hk
                exact (List.pairwise_append.1 hk).2.2 x hx p (by simp)
              rw [← e] at hpy
              exact hxneq (strcmpLe_antisymm _ _ hxp hpy)
            · rw [hx]; exact hpw

/-- On a dictionary without upper-case letters the texts of the word list are
in strict `strcmp` order: sorted, and no text twice. -/
theorem wordList_strict_of_lower (data : List Nat) (hlow : ∀ c ∈ data, ¬ (65 ≤ c ∧ c ≤ 90)) :
    ((wordList data).map (fun w => w.text)).Pairwise (fun a b => strcmpLe a b = true) ∧
    ((wordList data).map (fun w => w.text)).Nodup := by
  have htext : ∀ line ∈ qsortWords (splitWords data), (wordOf line).text = line := by
    intro line hl
    rw [qsortWords_mem] at hl
    exact maskLoop_text_of_lower line (fun c hc => hlow c (splitWords_subset data line hl c hc)) 0
  have hmap : ((qsortWords (splitWords data)).map wordOf).map (fun w => w.text) =
      qsortWords (splitWords data) := by
    rw [List.map_map]
    conv_rhs => rw [← List.map_id (qsortWords (splitWords data))]
    apply List.map_congr_left
    intro line hl
    exact htext line hl
  have hstrict := compactLoop_strict ((qsortWords (splitWords data)).map wordOf) []
    (by
      intro w hw
      simp only [List.reverse_nil, List.nil_append, List.mem_map] at hw
      obtain ⟨line, hl, rfl⟩ := hw
      rw [htext line hl])
    (by
      simp only [List.reverse_nil, List.nil_append]
      have := qsortWords_sorted (splitWords data)
      rw [← hmap, List.pairwise_map] at this
      exact this)
    (by simp)
  unfold wordList
  constructor
  · rw [List.pairwise_map]
    exact hstrict.imp (fun h => h.1)
  · unfold List.Nodup
    rw [List.pairwise_map]
    exact hstrict.imp (fun h => h.2)

/-! ## The anagram reducer: claim C11 -/

/-- The anagram loop keeps three facts about `dict`, the list built from the
words `seen` so far: it has no duplicates, it holds exactly the masks seen, and
it is ordered by the first position of its masks among the masks seen. -/
theorem anagramLoop_order (ws : List Word) :
    ∀ (seen : List Nat) (dict : List Nat),
      dict.Nodup → (∀ m, m ∈ dict ↔ m ∈ seen) →
      dict.Pairwise (fun a b => seen.indexOf a < seen.indexOf b) →
      (anagramLoop ws dict).Nodup ∧
      (∀ m, m ∈ anagramLoop ws dict ↔ m ∈ seen ++ ws.map (fun w => w.mask)) ∧
      (anagramLoop ws dict).Pairwise (fun a b =>
        (seen ++ ws.map (fun w => w.mask)).indexOf a <
          (seen ++ ws.map (fun w => w.mask)).indexOf b) := by
  induction ws with
  | nil =>
    intro seen dict hnd hmem hord
    simp only [List.map_nil, List.append_nil]
    exact ⟨hnd, hmem, hord⟩
  | cons w ws ih =>
    intro seen dict hnd hmem hord
    have hassoc : seen ++ (w :: ws).map (fun w => w.mask) =
        (seen ++ [w.mask]) ++ ws.map (fun w => w.mask) := by simp
    rw [hassoc]
    have hord' : dict.Pairwise (fun a b =>
        (seen ++ [w.mask]).indexOf a < (seen ++ [w.mask]).indexOf b) := by
      refine hord.imp_of_mem ?_
      intro a b ha hb hab
      rw [List.indexOf_append_of_mem ((hmem a).1 ha), List.indexOf_append_of_mem ((hmem b).1 hb)]
      exact hab
    unfold anagramLoop
    by_cases hin : w.mask ∈ dict
    · rw [if_pos hin]
      apply ih (seen ++ [w.mask]) dict hnd _ hord'
      intro m
      rw [List.mem_append, List.mem_singleton, hmem]
      constructor
      · intro h; exact Or.inl h
      · rintro (h | h)
        · exact h
        · rw [h]; exact (hmem _).1 hin
    · rw [if_neg hin]
      have hns : w.mask ∉ seen := fun h => hin ((hmem _).2 h)
      apply ih (seen ++ [w.mask]) (dict ++ [w.mask])
      · rw [List.nodup_append]
        refine ⟨hnd, List.nodup_singleton _, ?_⟩
        intro x hx hx'
        rw [List.mem_singleton] at hx'
        exact hin (hx' ▸ hx)
      · intro m
        rw [List.mem_append, List.mem_append, hmem]
      · rw [List.pairwise_append]
        refine ⟨hord', by simp, ?_⟩
        intro a ha b hb
        rw [List.mem_singleton] at hb
        subst hb
        rw [List.indexOf_append_of_mem ((hmem a).1 ha), List.indexOf_append_of_not_mem hns,
          List.indexOf_cons_self]
        have := List.indexOf_lt_length.2 ((hmem a).1 ha)
        omega

/-- C11: for every word list, the level-0 list holds every mask of the word
list exactly once and no other value, and it is ordered by the position of the
first word with the mask. -/
theorem level0_distinct_masks_in_first_order (wl : List Word) :
    (∀ m, (level0 wl).count m = if m ∈ wl.map (fun w => w.mask) then 1 else 0) ∧
    (level0 wl).Pairwise (fun a b =>
      (wl.map (fun w => w.mask)).indexOf a < (wl.map (fun w => w.mask)).indexOf b) := by
  have h := anagramLoop_order wl [] [] List.nodup_nil (fun _ => Iff.rfl) List.Pairwise.nil
  simp only [List.nil_append] at h
  refine ⟨fun m => ?_, h.2.2⟩
  by_cases hm : m ∈ wl.map (fun w => w.mask)
  · rw [if_pos hm]
    exact List.count_eq_one_of_mem h.1 ((h.2.1 m).2 hm)
  · rw [if_neg hm]
    exact List.count_eq_zero_of_not_mem (fun hc => hm ((h.2.1 m).1 hc))

/-! ## The program: claims C13 and C14 -/

/-- The model of `qsort` gives the same list for two permutations of the same
strings. -/
theorem qsortWords_eq_of_perm {l₁ l₂ : List (List Nat)} (h : l₁.Perm l₂) :
    qsortWords l₁ = qsortWords l₂ := by
  refine List.Perm.eq_of_sorted ?_ (qsortWords_sorted l₁) (qsortWords_sorted l₂)
    (((qsortWords_perm l₁).trans h).trans (qsortWords_perm l₂).symm)
  intro a b _ _ hab hba
  exact strcmpLe_antisymm a b hab hba

/-- C13: two dictionaries whose lines are permutations of each other give the
same word list, and the program prints the same sequence of sentences, after
any number of iterations and at the end. -/
theorem permuted_lines_same_output (d₁ d₂ : List Nat)
    (h : (splitWords d₁).Perm (splitWords d₂)) :
    wordList d₁ = wordList d₂ ∧
    (∀ n, (emitted n (level0 (wordList d₁))).map (printSentence (wordList d₁)) =
      (emitted n (level0 (wordList d₂))).map (printSentence (wordList d₂))) ∧
    (∀ fuel, pangram_heterogram (some d₁) fuel = pangram_heterogram (some d₂) fuel) := by
  have hw : wordList d₁ = wordList d₂ := by
    unfold wordList
    rw [qsortWords_eq_of_perm h]
  refine ⟨hw, fun n => by rw [hw], fun fuel => ?_⟩
  show Option.map (fun sols => List.map (printSentence (wordList d₁)) sols)
      (search fuel (level0 (wordList d₁))) =
    Option.map (fun sols => List.map (printSentence (wordList d₂)) sols)
      (search fuel (level0 (wordList d₂)))
  rw [hw]

/-- Witness of C13: scenario S3, the two lines of scenario S1 in the other
order, prints what S1 prints. -/
theorem permuted_lines_same_output_witness :
    (splitWords dictS3).Perm (splitWords dictS1) ∧
    (wordList dictS3 = wordList dictS1 ∧
    (∀ n, (emitted n (level0 (wordList dictS3))).map (printSentence (wordList dictS3)) =
      (emitted n (level0 (wordList dictS1))).map (printSentence (wordList dictS1))) ∧
    (∀ fuel, pangram_heterogram (some dictS3) fuel = pangram_heterogram (some dictS1) fuel)) :=
  ⟨by decide, permuted_lines_same_output dictS3 dictS1 (by decide)⟩

/-- Counterexample to C14 as stated: when the file cannot be opened the
program prints its message and the exit code is 0. -/
theorem main_not_found_exit_code :
    main none 0 = some ([notFoundMessage], 0) ∧
    ¬ ∃ printed code, main none 0 = some (printed, code) ∧ code ≠ 0 := by
  refine ⟨rfl, ?_⟩
  rintro ⟨printed, code, h, hne⟩
  have h' : some (([notFoundMessage] : List (List Nat)), (0 : Int)) = some (printed, code) := h
  simp only [Option.some.injEq, Prod.mk.injEq] at h'
  exact hne h'.2.symm

/-- C14 as amended: when the dictionary file cannot be opened, the program
prints `dictionary file not found` and exits with code 0; when the search
completes, with solutions or without, it exits with code 0. -/
theorem main_exit_code (file : Option (List Nat)) :
    (∀ fuel, main none fuel = some ([notFoundMessage], 0)) ∧
    (∀ data, ∃ printed,
      main (some data) (2 ^ ((level0 (wordList data)).length + 1)) = some (printed, 0)) ∧
    (∀ fuel printed code, main file fuel = some (printed, code) → code = 0) := by
  refine ⟨fun _ => rfl, fun data => ?_, fun fuel printed code h => ?_⟩
  · refine ⟨(bruteForce 0 (level0 (wordList data))).map (printSentence (wordList data)), ?_⟩
    unfold main pangram_heterogram
    simp only
    rw [search_eq_bruteForce (level0_ne_zero data) (le_refl _)]
    rfl
  · unfold main at h
    cases hp : pangram_heterogram file fuel with
    | none => rw [hp] at h; simp at h
    | some p =>
      rw [hp] at h
      simp only [Option.map_some', Option.some.injEq, Prod.mk.injEq] at h
      exact h.2.symm

/-- Witness of C14 as amended: the file cannot be opened. -/
theorem main_exit_code_witness :
    main none 0 = some ([notFoundMessage], 0) ∧ (0 : Int) = 0 :=
  ⟨rfl, (main_exit_code none).2.2 0 [notFoundMessage] 0 rfl⟩

/-! ## The search state: claims C15 to C20 -/

theorem runN_succ (n : Nat) : ∀ s : SearchState,
    runN (n + 1) s = match step (runN n s) with
      | none => runN n s
      | some t => t := by
  induction n with
  | zero =>
    intro s
    cases hs : step s with
    | none => simp only [runN, hs]
    | some t => simp only [runN, hs]
  | succ n ih =>
    intro s
    cases hs : step s with
    | none =>
      have h1 : runN (n + 1) s = s := by simp only [runN, hs]
      have h2 : runN (n + 1 + 1) s = s := by simp only [runN, hs]
      rw [h1, h2, hs]
    | some t =>
      have h1 : runN (n + 1) s = runN n t := by simp only [runN, hs]
      have h2 : runN (n + 1 + 1) s = runN (n + 1) t := by simp only [runN, hs]
      rw [h1, h2]
      exact ih t

theorem stateAfter_succ (l : List Nat) (n : Nat) :
    stateAfter l (n + 1) = match step (stateAfter l n) with
      | none => stateAfter l n
      | some t => t :=
  runN_succ n _

theorem Inv.stateAfter {l : List Nat} (hnz : ∀ m ∈ l, m ≠ 0) (n : Nat) :
    Inv l (stateAfter l n) :=
  Inv.runN hnz n _ (Inv.init l)

/-- C19: at every state reached on any dictionary, every mask of the dict of a
level `d` of the stack is disjoint from the sentence mask of that level, and
for a level `d + 1` of the stack the dict is the list of the masks of the dict
of level `d` after the index of level `d` that are disjoint from the sentence
mask of level `d + 1`, in the same order. -/
theorem dict_of_level (data : List Nat) (n : Nat) :
    (∀ d, d ≤ (stateAfter (level0 (wordList data)) n).level →
      ∀ x ∈ (stateAfter (level0 (wordList data)) n).level_dict d,
        (stateAfter (level0 (wordList data)) n).level_mask d &&& x = 0) ∧
    (∀ d, d < (stateAfter (level0 (wordList data)) n).level →
      0 ≤ (stateAfter (level0 (wordList data)) n).level_word_index d ∧
      (stateAfter (level0 (wordList data)) n).level_dict (d + 1) =
        (((stateAfter (level0 (wordList data)) n).level_dict d).drop
          (((stateAfter (level0 (wordList data)) n).level_word_index d).toNat + 1)).filter
          (fun m => (stateAfter (level0 (wordList data)) n).level_mask (d + 1) &&& m = 0)) := by
  have h := Inv.stateAfter (level0_ne_zero data) n
  refine ⟨fun d hd x hx => (h.fits hd hx).1, fun d hd => ?_⟩
  have hc := h.chain d hd
  refine ⟨hc.1, ?_⟩
  rw [hc.2.2.2]
  unfold childDict
  have e : ((stateAfter (level0 (wordList data)) n).level_word_index d + 1).toNat =
      ((stateAfter (level0 (wordList data)) n).level_word_index d).toNat + 1 := by
    have := hc.1
    omega
  rw [e]

theorem step_solution_eq {s : SearchState}
    (hlt : nextIndex s < (s.level_stop_index s.level : Int))
    (hfull : nextMask s = ALL_LETTERS_MASK) :
    step s = some (solutionBranch (enter s)) := by
  rw [step_solution hlt hfull]
  rfl

/-- C20: when a solution is emitted (the state after line 221 has stack height
`level`), the branch sets the memo entry of the sentence mask of every depth
`i < level` to 0 and leaves every other memo entry, the dicts and the word
indices (and the sentence masks and stop indices) unchanged. -/
theorem solution_frame_effect (s : SearchState)
    (hlt : nextIndex s < (s.level_stop_index s.level : Int))
    (hfull : nextMask s = ALL_LETTERS_MASK) :
    step s = some (solutionBranch (enter s)) ∧
    (∀ i, i < (enter s).level →
      (solutionBranch (enter s)).mask_completed_length ((enter s).level_mask i) = 0) ∧
    (∀ T, (∀ i, i < (enter s).level → (enter s).level_mask i ≠ T) →
      (solutionBranch (enter s)).mask_completed_length T = (enter s).mask_completed_length T) ∧
    (solutionBranch (enter s)).level_dict = (enter s).level_dict ∧
    (solutionBranch (enter s)).level_word_index = (enter s).level_word_index ∧
    (solutionBranch (enter s)).level_mask = (enter s).level_mask ∧
    (solutionBranch (enter s)).level_stop_index = (enter s).level_stop_index :=
  ⟨step_solution_eq hlt hfull,
   fun i hi => reopen_on _ _ _ i hi,
   fun T hT => reopen_off _ _ _ T hT,
   rfl, rfl, rfl, rfl⟩

/-- Witness of C20: the level-0 list of scenario S1 after one iteration; the
next word completes the alphabet. -/
theorem solution_frame_effect_witness :
    nextIndex (stateAfter [8191, 67100672] 1) <
      ((stateAfter [8191, 67100672] 1).level_stop_index
        (stateAfter [8191, 67100672] 1).level : Int) ∧
    nextMask (stateAfter [8191, 67100672] 1) = ALL_LETTERS_MASK ∧
    (solutionBranch (enter (stateAfter [8191, 67100672] 1))).level_dict =
      (enter (stateAfter [8191, 67100672] 1)).level_dict :=
  ⟨by decide, by decide,
   (solution_frame_effect (stateAfter [8191, 67100672] 1) (by decide) (by decide)).2.2.2.1⟩

/-! ### Termination on every list: claim C18 -/

theorem Bounded.atStart (l : List Nat) : Bounded (initState l) :=
  ⟨fun _ _ => le_refl _, fun _ _ => le_refl _⟩

theorem Bounded.next {s : SearchState} (h : Bounded s)
    (hlt : nextIndex s < (s.level_stop_index s.level : Int)) :
    0 ≤ nextIndex s ∧ (nextIndex s).toNat < (s.level_dict s.level).length := by
  have h1 := h.index s.level (le_refl _)
  have h2 := h.stop s.level (le_refl _)
  unfold nextIndex at *
  omega

theorem Bounded.afterPop {s t : SearchState} (h : Bounded s) (e1 : t.level = s.level - 1)
    (e2 : t.level_word_index = setAt s.level_word_index s.level (nextIndex s))
    (e4 : t.level_stop_index = s.level_stop_index) (e5 : t.level_dict = s.level_dict) :
    Bounded t := by
  constructor
  · intro i hi
    rw [e2]
    unfold setAt
    split
    · have := h.index s.level (le_refl _)
      unfold nextIndex
      omega
    · exact h.index i (by omega)
  · intro i hi
    rw [e4, e5]
    exact h.stop i (by omega)

theorem Bounded.advance {s t : SearchState} (h : Bounded s) (a : Advanced s t)
    (e1 : t.level = s.level ∨ (t.level = s.level + 1 ∧
      t.level_stop_index (s.level + 1) ≤ (t.level_dict (s.level + 1)).length)) :
    Bounded t := by
  have hle : ∀ i, i ≤ s.level → -1 ≤ t.level_word_index i ∧
      t.level_stop_index i ≤ (t.level_dict i).length := by
    intro i hi
    rw [a.stop i hi, a.dict i hi]
    refine ⟨?_, h.stop i hi⟩
    by_cases hil : i < s.level
    · rw [a.index_lt hil]
      exact h.index i hi
    · have : i = s.level := by omega
      subst this
      rw [a.index_top]
      have := h.index s.level (le_refl _)
      unfold nextIndex
      omega
  rcases e1 with e | ⟨e, hs⟩
  · constructor
    · intro i hi
      exact (hle i (by omega)).1
    · intro i hi
      exact (hle i (by omega)).2
  · constructor
    · intro i hi
      by_cases hil : i ≤ s.level
      · exact (hle i hil).1
      · have : i = s.level + 1 := by omega
        subst this
        rw [a.index_new]
    · intro i hi
      by_cases hil : i ≤ s.level
      · exact (hle i hil).2
      · have : i = s.level + 1 := by omega
        subst this
        exact hs

/-- Every iteration keeps the bounds and, unless it leaves the loop, lowers the
measure; no condition on the masks is needed. -/
theorem Bounded.afterStep {s t : SearchState} (h : Bounded s) (hs : Pangram.step s = some t) :
    Bounded t ∧ measure t < measure s := by
  by_cases hge : nextIndex s ≥ (s.level_stop_index s.level : Int)
  · by_cases hl : s.level = 0
    · rw [step_halt hge hl] at hs
      exact absurd hs (by simp)
    · rw [step_pop hge hl] at hs
      have e := Option.some.inj hs
      subst e
      exact ⟨h.afterPop rfl rfl rfl rfl, measure_pop hl rfl rfl rfl⟩
  · have hlt := not_le.1 hge
    have hb := h.next hlt
    have key : ∀ t, Advanced s t → t.level = s.level ∨
        (t.level = s.level + 1 ∧ t.level_dict (s.level + 1) = nextDict s ∧
          t.level_stop_index (s.level + 1) ≤ (t.level_dict (s.level + 1)).length) →
        Bounded t ∧ measure t < measure s := by
      intro t a ht
      refine ⟨h.advance a (ht.imp id (fun x => ⟨x.1, x.2.2⟩)), ?_⟩
      unfold measure
      have h1 := measureBelow_congr s.level (fun j hj => a.wordsLeft_lt hj)
      have h2 : wordsLeft s s.level = wordsLeft t s.level + 1 := by
        unfold wordsLeft
        rw [a.dict _ (le_refl _), a.index_top]
        unfold nextIndex at *
        omega
      have h3 := weight_succ (wordsLeft t s.level)
      rcases ht with e | ⟨e, ed, _⟩
      · rw [e]
        simp only [measureBelow]
        rw [h1, h2, h3]
        omega
      · rw [e]
        simp only [measureBelow]
        rw [h1, h2, h3]
        have h4 : wordsLeft t (s.level + 1) ≤ wordsLeft t s.level := by
          unfold wordsLeft
          rw [ed, a.index_new, a.dict _ (le_refl _), a.index_top]
          have := nextDict_length_le s
          omega
        have := weight_mono h4
        omega
    by_cases hfull : nextMask s = ALL_LETTERS_MASK
    · rw [step_solution hlt hfull] at hs
      have e := Option.some.inj hs
      subst e
      exact key _ ⟨rfl, rfl, fun _ _ => rfl, fun _ _ => rfl⟩ (Or.inl rfl)
    · by_cases hprev : s.mask_completed_length (nextMask s) ≠ 0 ∧
          s.mask_completed_length (nextMask s) ≥ (nextDict s).length
      · rw [step_skip hlt hfull hprev.1 hprev.2] at hs
        have e := Option.some.inj hs
        subst e
        exact key _ ⟨rfl, rfl, fun j hj => setAt_ne _ _ (by omega),
          fun j hj => setAt_ne _ _ (by omega)⟩ (Or.inl rfl)
      · have hprev' : s.mask_completed_length (nextMask s) = 0 ∨
            s.mask_completed_length (nextMask s) < (nextDict s).length := by
          by_cases h0 : s.mask_completed_length (nextMask s) = 0
          · exact Or.inl h0
          · right
            by_contra hc
            exact hprev ⟨h0, not_lt.1 hc⟩
        rw [step_push hlt hfull hprev'] at hs
        have e := Option.some.inj hs
        subst e
        refine key _ ⟨rfl, rfl, fun j hj => setAt_ne _ _ (by omega),
          fun j hj => setAt_ne _ _ (by omega)⟩ (Or.inr ⟨rfl, setAt_same _ _ _, ?_⟩)
        show setAt s.level_stop_index (s.level + 1) _ (s.level + 1) ≤
          (setAt s.level_dict (s.level + 1) _ (s.level + 1)).length
        rw [setAt_same, setAt_same]
        exact Nat.sub_le _ _

theorem Bounded.mainLoop_ends (fuel : Nat) :
    ∀ s, Bounded s → measure s < fuel →
      ∃ t, Pangram.mainLoop fuel s = some t ∧ Pangram.step t = none := by
  induction fuel with
  | zero => intro s _ hm; exact absurd hm (Nat.not_lt_zero _)
  | succ fuel ih =>
    intro s h hm
    unfold Pangram.mainLoop
    cases hs : Pangram.step s with
    | none => exact ⟨s, rfl, hs⟩
    | some t =>
      have := h.afterStep hs
      exact ih t this.1 (by omega)

/-- C18: on every level-0 list the main loop terminates: `2 ^ (n + 1)`
iterations for a list of `n` masks (and any larger number) reach the `break`,
which is taken at level 0 when the index of the root level has reached its stop
index. -/
theorem mainLoop_terminates (l : List Nat) (extra : Nat) :
    ∃ t, mainLoop (2 ^ (l.length + 1) + extra) (initState l) = some t ∧
      step t = none ∧ t.level = 0 ∧
      t.level_word_index 0 + 1 ≥ (t.level_stop_index 0 : Int) := by
  obtain ⟨t, ht, hnone⟩ := Bounded.mainLoop_ends (2 ^ (l.length + 1) + extra) _
    (Bounded.atStart l) (lt_of_lt_of_le (measure_init l) (Nat.le_add_right _ _))
  have hn := step_none hnone
  refine ⟨t, ht, hnone, hn.2, ?_⟩
  have := hn.1
  unfold nextIndex at this
  rw [hn.2] at this
  exact this

/-! ### The memo table and the child dicts: claims C15 and C16 -/

theorem reopen_ne_zero {lm : Nat → Nat} {memo : Nat → Nat} {n T : Nat}
    (h : reopen lm n memo T ≠ 0) : reopen lm n memo T = memo T := by
  by_cases hex : ∃ i, i < n ∧ lm i = T
  · obtain ⟨i, hi, e⟩ := hex
    rw [← e, reopen_on _ _ _ i hi] at h
    exact absurd rfl h
  · apply reopen_off
    intro i hi e
    exact hex ⟨i, hi, e⟩

theorem Built.mono {l : List Nat} {n T : Nat} {d : List Nat} (h : Built l n T d) :
    Built l (n + 1) T d := by
  obtain ⟨k, hk, rest⟩ := h
  exact ⟨k, by omega, rest⟩

/-- A non-zero memo entry is the length of a child dict built earlier for that
sentence mask. -/
theorem memo_history (l : List Nat) (n : Nat) :
    ∀ T, (stateAfter l n).mask_completed_length T ≠ 0 →
      ∃ d, Built l n T d ∧ d.length = (stateAfter l n).mask_completed_length T := by
  induction n with
  | zero =>
    intro T h
    exact absurd rfl h
  | succ n ih =>
    intro T h
    have hmono : ∀ T, (stateAfter l n).mask_completed_length T ≠ 0 →
        ∃ d, Built l (n + 1) T d ∧ d.length = (stateAfter l n).mask_completed_length T := by
      intro T hT
      obtain ⟨d, hd, hl⟩ := ih T hT
      exact ⟨d, hd.mono, hl⟩
    rw [stateAfter_succ] at h ⊢
    cases hs : step (stateAfter l n) with
    | none =>
      rw [hs] at h
      simp only [hs]
      exact hmono T h
    | some t =>
      rw [hs] at h
      simp only [hs] at h ⊢
      by_cases hge : nextIndex (stateAfter l n) ≥
          ((stateAfter l n).level_stop_index (stateAfter l n).level : Int)
      · by_cases hl : (stateAfter l n).level = 0
        · rw [step_halt hge hl] at hs
          exact absurd hs (by simp)
        · rw [step_pop hge hl] at hs
          have e := Option.some.inj hs
          subst e
          exact hmono T h
      · have hlt := not_le.1 hge
        by_cases hfull : nextMask (stateAfter l n) = ALL_LETTERS_MASK
        · rw [step_solution hlt hfull] at hs
          have e := Option.some.inj hs
          subst e
          have h' := reopen_ne_zero h
          simp only at h' ⊢
          rw [h']
          exact hmono T (h' ▸ h)
        · by_cases hprev : (stateAfter l n).mask_completed_length (nextMask (stateAfter l n)) ≠ 0 ∧
              (stateAfter l n).mask_completed_length (nextMask (stateAfter l n)) ≥
                (nextDict (stateAfter l n)).length
          · rw [step_skip hlt hfull hprev.1 hprev.2] at hs
            have e := Option.some.inj hs
            subst e
            exact hmono T h
          · have hprev' : (stateAfter l n).mask_completed_length (nextMask (stateAfter l n)) = 0 ∨
                (stateAfter l n).mask_completed_length (nextMask (stateAfter l n)) <
                  (nextDict (stateAfter l n)).length := by
              by_cases h0 : (stateAfter l n).mask_completed_length (nextMask (stateAfter l n)) = 0
              · exact Or.inl h0
              · right
                by_contra hc
                exact hprev ⟨h0, not_lt.1 hc⟩
            rw [step_push hlt hfull hprev'] at hs
            have e := Option.some.inj hs
            subst e
            simp only at h ⊢
            by_cases hT : T = nextMask (stateAfter l n)
            · subst hT
              rw [setAt_same]
              exact ⟨nextDict (stateAfter l n), ⟨n, Nat.lt_succ_self n, hlt, hfull, rfl, rfl⟩, rfl⟩
            · rw [setAt_ne _ _ hT] at h ⊢
              exact hmono T h

theorem Built.suffix {l : List Nat} (hnz : ∀ m ∈ l, m ≠ 0) {n T : Nat} {d : List Nat}
    (h : Built l n T d) : d <:+ l.filter (fun x => T &&& x = 0) ∧ T ≠ ALL_LETTERS_MASK := by
  obtain ⟨k, _, _, hfull, hT, hd⟩ := h
  rw [← hT, ← hd]
  exact ⟨(Inv.stateAfter hnz k).nextDict_suffix, hfull⟩

/-- C16: on every dictionary, two child dicts built during the search for the
same sentence mask are nested suffixes, equal when their lengths are equal, and
the longer is its first entries followed by the shorter; and when the memo
entry `prev` of the sentence mask of a new child satisfies
`0 < prev < dict_length`, a child dict of length `prev` was built earlier for
that mask and the current dict is its first `dict_length - prev` entries
followed by that dict. -/
theorem child_dicts_nested (data : List Nat) :
    (∀ n₁ n₂ T d₁ d₂, Built (level0 (wordList data)) n₁ T d₁ →
      Built (level0 (wordList data)) n₂ T d₂ →
      (d₁ <:+ d₂ ∨ d₂ <:+ d₁) ∧ (d₁.length = d₂.length → d₁ = d₂) ∧
      (d₁.length ≤ d₂.length → d₂ = d₂.take (d₂.length - d₁.length) ++ d₁)) ∧
    (∀ n, nextIndex (stateAfter (level0 (wordList data)) n) <
        ((stateAfter (level0 (wordList data)) n).level_stop_index
          (stateAfter (level0 (wordList data)) n).level : Int) →
      nextMask (stateAfter (level0 (wordList data)) n) ≠ ALL_LETTERS_MASK →
      0 < (stateAfter (level0 (wordList data)) n).mask_completed_length
        (nextMask (stateAfter (level0 (wordList data)) n)) →
      (stateAfter (level0 (wordList data)) n).mask_completed_length
        (nextMask (stateAfter (level0 (wordList data)) n)) <
          (nextDict (stateAfter (level0 (wordList data)) n)).length →
      ∃ d, Built (level0 (wordList data)) n
          (nextMask (stateAfter (level0 (wordList data)) n)) d ∧
        d.length = (stateAfter (level0 (wordList data)) n).mask_completed_length
          (nextMask (stateAfter (level0 (wordList data)) n)) ∧
        nextDict (stateAfter (level0 (wordList data)) n) =
          (nextDict (stateAfter (level0 (wordList data)) n)).take
            ((nextDict (stateAfter (level0 (wordList data)) n)).length - d.length) ++ d) := by
  have hnz := level0_ne_zero data
  have hnest : ∀ {d₁ d₂ F : List Nat}, d₁ <:+ F → d₂ <:+ F → d₁.length ≤ d₂.length →
      d₁ <:+ d₂ ∧ d₂ = d₂.take (d₂.length - d₁.length) ++ d₁ := by
    intro d₁ d₂ F h₁ h₂ hle
    have hs : d₁ <:+ d₂ := List.suffix_of_suffix_length_le h₁ h₂ hle
    refine ⟨hs, ?_⟩
    obtain ⟨pre, rfl⟩ := hs
    have : (pre ++ d₁).length - d₁.length = pre.length := by
      simp
    rw [this, List.take_left]
  constructor
  · intro n₁ n₂ T d₁ d₂ h₁ h₂
    have s₁ := (h₁.suffix hnz).1
    have s₂ := (h₂.suffix hnz).1
    refine ⟨?_, ?_, fun hle => (hnest s₁ s₂ hle).2⟩
    · rcases Nat.le_total d₁.length d₂.length with hle | hle
      · exact Or.inl (hnest s₁ s₂ hle).1
      · exact Or.inr (hnest s₂ s₁ hle).1
    · intro he
      exact (hnest s₁ s₂ (le_of_eq he)).1.eq_of_length he
  · intro n hlt hfull hpos hless
    obtain ⟨d, hd, hl⟩ := memo_history (level0 (wordList data)) n _ (Nat.pos_iff_ne_zero.1 hpos)
    refine ⟨d, hd, hl, ?_⟩
    have s₁ := (hd.suffix hnz).1
    have s₂ := (Inv.stateAfter hnz n).nextDict_suffix
    exact (hnest s₁ s₂ (by omega)).2

/-- When the reference enumerator finds nothing from the sentence mask `T` in a
duplicate-free list of non-zero masks, no selection of masks of the list
extends `T` to a pangrammatic heterogram. -/
theorem no_completion {L : List Nat} (hnd : L.Nodup) (hnz : ∀ m ∈ L, m ≠ 0) {T : Nat}
    (hT : T ≠ ALL_LETTERS_MASK) (hnil : bruteForce T L = []) :
    ∀ t, List.Sublist t L → ¬ Completes T t := by
  intro t hsub hc
  obtain ⟨hpw, hfit, hor⟩ := hc
  by_cases hne : t = []
  · subst hne
    apply hT
    rw [← hor]
    show T = T ||| 0
    rw [Nat.or_zero]
  · have := bruteForce_count hnz hnd hsub hne hfit hpw hor
    rw [hnil] at this
    simp at this

theorem lastN_sublist (n : Nat) (l : List Nat) : List.Sublist (lastN n l) l :=
  List.drop_sublist _ _

/-- C15: at every state reached on any dictionary, when the memo table makes
the search skip the new child (`prev >= dict_length`), no selection of masks of
the child's dict extends the child's sentence to a pangrammatic heterogram;
when it cuts the child's range to the first `dict_length - prev` entries, no
selection from the remaining last `prev` entries does; and whenever the memo
entry of a sentence mask `T` that is on no level of the stack is `n > 0`, no
selection from the last `n` level-0 masks disjoint from `T` does. -/
theorem memo_skips_no_solution (data : List Nat) (n : Nat) :
    (nextIndex (stateAfter (level0 (wordList data)) n) <
        ((stateAfter (level0 (wordList data)) n).level_stop_index
          (stateAfter (level0 (wordList data)) n).level : Int) →
      nextMask (stateAfter (level0 (wordList data)) n) ≠ ALL_LETTERS_MASK →
      (stateAfter (level0 (wordList data)) n).mask_completed_length
        (nextMask (stateAfter (level0 (wordList data)) n)) ≠ 0 →
      ((stateAfter (level0 (wordList data)) n).mask_completed_length
          (nextMask (stateAfter (level0 (wordList data)) n)) ≥
            (nextDict (stateAfter (level0 (wordList data)) n)).length →
        ∀ t, List.Sublist t (nextDict (stateAfter (level0 (wordList data)) n)) →
          ¬ Completes (nextMask (stateAfter (level0 (wordList data)) n)) t) ∧
      ((stateAfter (level0 (wordList data)) n).mask_completed_length
          (nextMask (stateAfter (level0 (wordList data)) n)) <
            (nextDict (stateAfter (level0 (wordList data)) n)).length →
        ∀ t, List.Sublist t ((nextDict (stateAfter (level0 (wordList data)) n)).drop
            ((nextDict (stateAfter (level0 (wordList data)) n)).length -
              (stateAfter (level0 (wordList data)) n).mask_completed_length
                (nextMask (stateAfter (level0 (wordList data)) n)))) →
          ¬ Completes (nextMask (stateAfter (level0 (wordList data)) n)) t)) ∧
    (∀ T, (∀ i, i ≤ (stateAfter (level0 (wordList data)) n).level →
        (stateAfter (level0 (wordList data)) n).level_mask i ≠ T) →
      (stateAfter (level0 (wordList data)) n).mask_completed_length T ≠ 0 →
      ∀ t, List.Sublist t (lastN ((stateAfter (level0 (wordList data)) n).mask_completed_length T)
          ((level0 (wordList data)).filter (fun x => T &&& x = 0))) →
        ¬ Completes T t) := by
  have hnz := level0_ne_zero data
  have hnd := level0_nodup (wordList data)
  have h := Inv.stateAfter hnz n
  have hsubl : ∀ T, List.Sublist ((level0 (wordList data)).filter (fun x => T &&& x = 0))
      (level0 (wordList data)) := fun T => List.filter_sublist _
  constructor
  · intro hlt hfull hprev
    have hmemo := h.memo_next hnz hlt hprev
    have hsuf := h.nextDict_suffix
    have hsub : List.Sublist (nextDict (stateAfter (level0 (wordList data)) n))
        (level0 (wordList data)) := hsuf.sublist.trans (hsubl _)
    constructor
    · intro hlen
      obtain ⟨k, hk⟩ := suffix_eq_drop_lastN hsuf hlen
      have hnil : bruteForce (nextMask (stateAfter (level0 (wordList data)) n))
          (nextDict (stateAfter (level0 (wordList data)) n)) = [] := by
        rw [hk]
        exact bruteForce_drop_nil _ _ hmemo
      exact no_completion (hnd.sublist hsub) (fun m hm => hnz m (hsub.subset hm)) hfull hnil
    · intro hlen
      have hnil := hmemo
      rw [← suffix_drop_eq_lastN hsuf (le_of_lt hlen)] at hnil
      have hsub' : List.Sublist ((nextDict (stateAfter (level0 (wordList data)) n)).drop
          ((nextDict (stateAfter (level0 (wordList data)) n)).length -
            (stateAfter (level0 (wordList data)) n).mask_completed_length
              (nextMask (stateAfter (level0 (wordList data)) n)))) (level0 (wordList data)) :=
        (List.drop_sublist _ _).trans hsub
      exact no_completion (hnd.sublist hsub') (fun m hm => hnz m (hsub'.subset hm)) hfull hnil
  · intro T hT hm
    obtain ⟨d, hd, _⟩ := memo_history (level0 (wordList data)) n T hm
    have hTne := (hd.suffix hnz).2
    have hsub := (lastN_sublist ((stateAfter (level0 (wordList data)) n).mask_completed_length T)
      _).trans (hsubl T)
    exact no_completion (hnd.sublist hsub) (fun m hm' => hnz m (hsub.subset hm')) hTne
      (h.memoOff T hT hm)

/-! ### The depth of the stack: claim C17 -/

/-- Code at the failing input of C17: on the dictionary of the 26 one-letter
words, after 25 iterations the stack has level 25 and the index of that level
has not reached its stop index, so the next iteration runs lines 219-221 with
`level` equal to 26, which is `NUM_LETTERS`: it writes `level_mask[26]` and
`level_word_index[26]`. -/
theorem level_reaches_26 :
    level0 (wordList dict26) = masks26 ∧
    (stateAfter masks26 25).level = 25 ∧
    nextIndex (stateAfter masks26 25) <
      ((stateAfter masks26 25).level_stop_index (stateAfter masks26 25).level : Int) ∧
    (enter (stateAfter masks26 25)).level = NUM_LETTERS ∧
    step (stateAfter masks26 25) = some (solutionBranch (enter (stateAfter masks26 25))) ∧
    (stateAfter masks26 26).level_mask NUM_LETTERS = ALL_LETTERS_MASK ∧
    (stateAfter masks26 26).level_word_index NUM_LETTERS = -1 := by
  have h1 : nextIndex (stateAfter masks26 25) <
      ((stateAfter masks26 25).level_stop_index (stateAfter masks26 25).level : Int) := by decide
  have h2 : nextMask (stateAfter masks26 25) = ALL_LETTERS_MASK := by decide
  exact ⟨by decide, by decide, h1, by decide, step_solution_eq h1 h2, by decide, by decide⟩

/-! ### Idempotence of the normalizer: claim C12 -/

/-- Code at the failing input of C12: the dictionary with the lines `B`, `a`
gives the word list `b`, `a`; these texts fed back, one per line, give the word
list `a`, `b`. -/
theorem wordList_textLines_dictUpperFirst :
    wordList dictUpperFirst = [⟨[98], 2⟩, ⟨[97], 1⟩] ∧
    textLines (wordList dictUpperFirst) = [98, 10, 97, 10] ∧
    wordList (textLines (wordList dictUpperFirst)) = [⟨[97], 1⟩, ⟨[98], 2⟩] ∧
    wordList (textLines (wordList dictUpperFirst)) ≠ wordList dictUpperFirst := by
  refine ⟨by decide, by decide, by decide, by decide⟩

/-! ### How deep the stack gets -/

theorem popcount_le (m : Nat) : popcount m ≤ 26 := by
  unfold popcount
  calc ((List.range 26).filter (fun i => m.testBit i)).length ≤ (List.range 26).length :=
        List.length_filter_le _ _
    _ = 26 := List.length_range 26

/-- Adding a non-zero disjoint 26-bit mask raises the number of bits. -/
theorem popcount_or_lt {S m : Nat} (hd : S &&& m = 0) (hm : m ≠ 0) (hlt : m < 2 ^ 26) :
    popcount S < popcount (S ||| m) := by
  obtain ⟨k, hk⟩ := Nat.ne_zero_implies_bit_true hm
  have hk26 : k < 26 := by
    by_contra hge
    have h1 : m < 2 ^ k := lt_of_lt_of_le hlt (Nat.pow_le_pow_right (by decide) (not_lt.1 hge))
    rw [Nat.testBit_lt_two_pow h1] at hk
    exact absurd hk (by decide)
  have hSk : S.testBit k = false := by
    have := congrArg (fun n => n.testBit k) hd
    simpa [hk] using this
  have hsub : List.Sublist ((List.range 26).filter (fun i => S.testBit i))
      ((List.range 26).filter (fun i => (S ||| m).testBit i)) := by
    apply List.monotone_filter_right
    intro a ha
    rw [Nat.testBit_or, ha]
    rfl
  unfold popcount
  rcases Nat.lt_or_ge ((List.range 26).filter (fun i => S.testBit i)).length
      ((List.range 26).filter (fun i => (S ||| m).testBit i)).length with h | h
  · exact h
  · exfalso
    have he := hsub.eq_of_length (le_antisymm hsub.length_le h)
    have hin : k ∈ (List.range 26).filter (fun i => (S ||| m).testBit i) := by
      rw [List.mem_filter, List.mem_range, Nat.testBit_or, hk]
      exact ⟨hk26, by simp⟩
    rw [← he, List.mem_filter, hSk] at hin
    exact absurd hin.2 (by decide)

/-- A 26-bit mask with 26 bits set is the full alphabet. -/
theorem eq_all_of_popcount {m : Nat} (hlt : m < 2 ^ 26) (h : popcount m = 26) :
    m = ALL_LETTERS_MASK := by
  unfold popcount at h
  have hall : ∀ a ∈ List.range 26, m.testBit a = true := by
    apply List.filter_length_eq_length.1
    rw [h, List.length_range]
  apply Nat.eq_of_testBit_eq
  intro i
  show m.testBit i = (2 ^ 26 - 1).testBit i
  rw [Nat.testBit_two_pow_sub_one]
  by_cases hi : i < 26
  · rw [hall i (List.mem_range.2 hi)]
    simp [hi]
  · have h1 : m < 2 ^ i := lt_of_lt_of_le hlt (Nat.pow_le_pow_right (by decide) (not_lt.1 hi))
    rw [Nat.testBit_lt_two_pow h1]
    simp [hi]

theorem wordList_mask_lt (data : List Nat) : ∀ w ∈ wordList data, w.mask < 2 ^ 26 := by
  intro w hw
  obtain ⟨line, _, rfl, hm⟩ := (wordList_mem_iff data w).1 hw
  have hc := (wordOf_mask_ne_zero_iff line).1 hm
  apply Nat.lt_pow_two_of_testBit
  intro i hi
  rw [(wordOf_distinct hc.2).2 i]
  have : 97 + i ∉ letters line := by
    intro hmem
    have := (mem_letters_bounds hmem).2
    omega
  simp [this]

theorem level0_lt (data : List Nat) : ∀ m ∈ level0 (wordList data), m < 2 ^ 26 := by
  intro m hm
  obtain ⟨w, hw, e⟩ := level0_mem hm
  rw [← e]
  exact wordList_mask_lt data w hw

/-- The sentence mask of level `i` of the stack has at least `i` bits. -/
theorem Inv.popcount_ge {l : List Nat} {s : SearchState} (h : Inv l s)
    (hl : ∀ m ∈ l, m ≠ 0 ∧ m < 2 ^ 26) : ∀ i, i ≤ s.level → i ≤ popcount (s.level_mask i) := by
  intro i
  induction i with
  | zero => intro _; exact Nat.zero_le _
  | succ i ih =>
    intro hi
    have hc := h.chain i (by omega)
    have hmem : chosen s i ∈ s.level_dict i := by
      unfold chosen
      rw [List.getD_eq_getElem _ _ hc.2.1]
      exact List.getElem_mem _
    have hf := h.fits (by omega : i ≤ s.level) hmem
    have := popcount_or_lt hf.1 (hl _ hf.2).1 (hl _ hf.2).2
    rw [hc.2.2.1]
    have := ih (by omega)
    omega

theorem Inv.mask_lt {l : List Nat} {s : SearchState} (h : Inv l s)
    (hl : ∀ m ∈ l, m ≠ 0 ∧ m < 2 ^ 26) : ∀ i, i ≤ s.level → s.level_mask i < 2 ^ 26 := by
  intro i
  induction i with
  | zero => intro _; rw [h.mask0]; decide
  | succ i ih =>
    intro hi
    have hc := h.chain i (by omega)
    have hmem : chosen s i ∈ s.level_dict i := by
      unfold chosen
      rw [List.getD_eq_getElem _ _ hc.2.1]
      exact List.getElem_mem _
    have hf := h.fits (by omega : i ≤ s.level) hmem
    rw [hc.2.2.1]
    exact Nat.or_lt_two_pow (ih (by omega)) (hl _ hf.2).2

theorem NotFull.always (l : List Nat) (n : Nat) : NotFull (stateAfter l n) := by
  induction n with
  | zero =>
    intro i _
    show (0 : Nat) ≠ ALL_LETTERS_MASK
    decide
  | succ n ih =>
    rw [stateAfter_succ]
    cases hs : step (Pangram.stateAfter l n) with
    | none => exact ih
    | some t =>
      simp only
      by_cases hge : nextIndex (Pangram.stateAfter l n) ≥
          ((Pangram.stateAfter l n).level_stop_index (Pangram.stateAfter l n).level : Int)
      · by_cases hl : (Pangram.stateAfter l n).level = 0
        · rw [step_halt hge hl] at hs
          exact absurd hs (by simp)
        · rw [step_pop hge hl] at hs
          have e := Option.some.inj hs
          subst e
          intro i hi
          exact ih i (Nat.le_trans hi (Nat.sub_le _ _))
      · have hlt := not_le.1 hge
        have hold : ∀ i, i ≤ (Pangram.stateAfter l n).level →
            setAt (Pangram.stateAfter l n).level_mask ((Pangram.stateAfter l n).level + 1)
              (nextMask (Pangram.stateAfter l n)) i ≠ ALL_LETTERS_MASK := by
          intro i hi
          rw [setAt_ne _ _ (by omega)]
          exact ih i hi
        by_cases hfull : nextMask (Pangram.stateAfter l n) = ALL_LETTERS_MASK
        · rw [step_solution hlt hfull] at hs
          have e := Option.some.inj hs
          subst e
          exact hold
        · by_cases hprev : (Pangram.stateAfter l n).mask_completed_length
                (nextMask (Pangram.stateAfter l n)) ≠ 0 ∧
              (Pangram.stateAfter l n).mask_completed_length (nextMask (Pangram.stateAfter l n)) ≥
                (nextDict (Pangram.stateAfter l n)).length
          · rw [step_skip hlt hfull hprev.1 hprev.2] at hs
            have e := Option.some.inj hs
            subst e
            exact hold
          · have hprev' : (Pangram.stateAfter l n).mask_completed_length
                  (nextMask (Pangram.stateAfter l n)) = 0 ∨
                (Pangram.stateAfter l n).mask_completed_length
                  (nextMask (Pangram.stateAfter l n)) <
                  (nextDict (Pangram.stateAfter l n)).length := by
              by_cases h0 : (Pangram.stateAfter l n).mask_completed_length
                  (nextMask (Pangram.stateAfter l n)) = 0
              · exact Or.inl h0
              · right
                by_contra hc
                exact hprev ⟨h0, not_lt.1 hc⟩
            rw [step_push hlt hfull hprev'] at hs
            have e := Option.some.inj hs
            subst e
            intro i hi
            by_cases hil : i ≤ (Pangram.stateAfter l n).level
            · exact hold i hil
            · have hi' : i ≤ (Pangram.stateAfter l n).level + 1 := hi
              have : i = (Pangram.stateAfter l n).level + 1 := by omega
              subst this
              show setAt _ _ _ _ ≠ _
              rw [setAt_same]
              exact hfull

/-- On every dictionary the stack never gets deeper than level 25 at the head
of the loop, so lines 219-221 use an index of at most 26; the dictionary of
the 26 one-letter words reaches 26. -/
theorem level_le_25 (data : List Nat) (n : Nat) :
    (stateAfter (level0 (wordList data)) n).level ≤ 25 ∧
    (enter (stateAfter (level0 (wordList data)) n)).level ≤ NUM_LETTERS := by
  have hl : ∀ m ∈ level0 (wordList data), m ≠ 0 ∧ m < 2 ^ 26 :=
    fun m hm => ⟨level0_ne_zero data m hm, level0_lt data m hm⟩
  have h := Inv.stateAfter (level0_ne_zero data) n
  have h1 := h.popcount_ge hl _ (le_refl _)
  have h2 := h.mask_lt hl _ (le_refl _)
  have h3 := NotFull.always (level0 (wordList data)) n _ (le_refl _)
  have h4 := popcount_le ((stateAfter (level0 (wordList data)) n).level_mask
    (stateAfter (level0 (wordList data)) n).level)
  have h5 : popcount ((stateAfter (level0 (wordList data)) n).level_mask
      (stateAfter (level0 (wordList data)) n).level) ≠ 26 := fun e => h3 (eq_all_of_popcount h2 e)
  have h6 : (stateAfter (level0 (wordList data)) n).level ≤ 25 := by omega
  refine ⟨h6, ?_⟩
  show (stateAfter (level0 (wordList data)) n).level + 1 ≤ 26
  omega

/-! ### The normalizer on its own output, without upper-case letters -/

theorem scanLine_clean (l : List Nat) (b : Bool) :
    ∀ c ∈ (scanLine l b).1, c ≠ 10 ∧ c ≠ 13 := by
  induction l generalizing b with
  | nil => intro c h; simp [scanLine] at h
  | cons x rest ih =>
    intro c h
    unfold scanLine at h
    split at h
    · exact ih false c h
    · split at h
      · simp at h
      · rename_i h13 h10
        simp only at h
        split at h
        · rcases List.mem_cons.1 h with e | h
          · rw [e]; exact ⟨h10, h13⟩
          · exact ih b c h
        · exact ih b c h

theorem splitWordsAux_clean (fuel : Nat) :
    ∀ l : List Nat, ∀ w ∈ splitWordsAux fuel l, ∀ c ∈ w, c ≠ 10 ∧ c ≠ 13 := by
  induction fuel with
  | zero => intro l w hw; simp [splitWordsAux] at hw
  | succ fuel ih =>
    intro l w hw c hc
    cases l with
    | nil => simp [splitWordsAux] at hw
    | cons x rest =>
      simp only [splitWordsAux, List.mem_cons] at hw
      rcases hw with e | hw
      · rw [e] at hc
        exact scanLine_clean _ _ c hc
      · exact ih _ w hw c hc

/-- The words of the splitting loop hold no NUL, line feed or carriage
return. -/
theorem splitWords_clean (data : List Nat) :
    ∀ w ∈ splitWords data, ∀ c ∈ w, c ≠ 0 ∧ c ≠ 10 ∧ c ≠ 13 := by
  intro w hw c hc
  refine ⟨?_, splitWordsAux_clean _ _ w hw c hc⟩
  have hmem := splitWordsAux_subset _ _ w hw c hc
  have := List.mem_takeWhile_imp hmem
  simpa using this

theorem scanLine_line (t rest : List Nat) (h : ∀ c ∈ t, c ≠ 10 ∧ c ≠ 13) :
    scanLine (t ++ 10 :: rest) true = (t, rest) := by
  induction t with
  | nil =>
    show scanLine (10 :: rest) true = ([], rest)
    unfold scanLine
    simp
  | cons c t ih =>
    have hc := h c (List.mem_cons_self _ _)
    show scanLine (c :: (t ++ 10 :: rest)) true = (c :: t, rest)
    unfold scanLine
    rw [if_neg hc.2, if_neg hc.1, ih (fun x hx => h x (List.mem_cons_of_mem _ hx))]
    rfl

theorem splitWordsAux_lines (ts : List (List Nat))
    (h : ∀ t ∈ ts, ∀ c ∈ t, c ≠ 10 ∧ c ≠ 13) :
    ∀ fuel, ts.length ≤ fuel →
      splitWordsAux fuel ((ts.map (fun t => t ++ [10])).flatten) = ts := by
  induction ts with
  | nil =>
    intro fuel _
    cases fuel <;> rfl
  | cons t ts ih =>
    intro fuel hf
    cases fuel with
    | zero => simp at hf
    | succ fuel =>
      have hshape : ((t :: ts).map (fun t => t ++ [10])).flatten =
          t ++ 10 :: (ts.map (fun t => t ++ [10])).flatten := by
        simp
      rw [hshape]
      have hs := scanLine_line t ((ts.map (fun t => t ++ [10])).flatten)
        (h t (List.mem_cons_self _ _))
      have hih := ih (fun x hx => h x (List.mem_cons_of_mem _ hx)) fuel
        (by simp only [List.length_cons] at hf; omega)
      cases hl : t ++ 10 :: (ts.map (fun t => t ++ [10])).flatten with
      | nil => simp at hl
      | cons x xs =>
        rw [hl] at hs
        simp only [splitWordsAux, hs, hih]

/-- The splitting loop gives back the lines written by `textLines`. -/
theorem splitWords_textLines (wl : List Word)
    (h : ∀ w ∈ wl, ∀ c ∈ w.text, c ≠ 0 ∧ c ≠ 10 ∧ c ≠ 13) :
    splitWords (textLines wl) = wl.map (fun w => w.text) := by
  have hc : cstr (textLines wl) = textLines wl := by
    unfold cstr
    rw [List.takeWhile_eq_self_iff]
    intro c hc
    unfold textLines at hc
    simp only [List.mem_flatten, List.mem_map] at hc
    obtain ⟨l, ⟨w, hw, rfl⟩, hcl⟩ := hc
    rcases List.mem_append.1 hcl with hx | hx
    · simpa using (h w hw c hx).1
    · rw [List.mem_singleton] at hx
      rw [hx]; rfl
  unfold splitWords
  rw [hc]
  have hmap : textLines wl = ((wl.map (fun w => w.text)).map (fun t => t ++ [10])).flatten := by
    unfold textLines
    rw [List.map_map]
    rfl
  rw [hmap]
  apply splitWordsAux_lines
  · intro t ht c hct
    obtain ⟨w, hw, rfl⟩ := List.mem_map.1 ht
    exact (h w hw c hct).2
  · rw [← hmap]
    unfold textLines
    rw [List.length_flatten, List.map_map]
    have : ∀ l : List Word, (l.map (fun w => w.text)).length ≤
        (l.map (List.length ∘ fun w => w.text ++ [10])).sum := by
      intro l
      induction l with
      | nil => simp
      | cons a l ih =>
        simp only [List.map_cons, List.length_cons, List.sum_cons, Function.comp,
          List.length_append, List.length_nil, zero_add] at ih ⊢
        omega
    exact this wl

theorem qsortWords_of_sorted {l : List (List Nat)}
    (h : l.Pairwise (fun a b => strcmpLe a b = true)) : qsortWords l = l := by
  refine List.Perm.eq_of_sorted ?_ (qsortWords_sorted l) h (qsortWords_perm l)
  intro a b _ _ hab hba
  exact strcmpLe_antisymm a b hab hba

/-- The compaction loop keeps a list of words with non-zero masks and
different texts as it is. -/
theorem compactLoop_keeps (ws : List Word) :
    ∀ kept : List Word,
      (∀ w ∈ ws, w.mask ≠ 0) →
      (kept.reverse ++ ws).Pairwise (fun a b => a.text ≠ b.text) →
      compactLoop ws kept = kept.reverse ++ ws := by
  induction ws with
  | nil =>
    intro kept _ _
    simp [compactLoop]
  | cons w ws ih =>
    intro kept hm hp
    have hw := hm w (List.mem_cons_self _ _)
    have hm' : ∀ x ∈ ws, x.mask ≠ 0 := fun x hx => hm x (List.mem_cons_of_mem _ hx)
    unfold compactLoop
    rw [if_neg hw]
    cases kept with
    | nil =>
      simp only
      rw [ih [w] hm' (by simpa using hp)]
      simp
    | cons p ps =>
      simp only
      have hne : ¬ (w.mask = p.mask ∧ strcmpEq w.text p.text = true) := by
        rintro ⟨_, he⟩
        unfold strcmpEq at he
        have he' : w.text = p.text := by simpa using he
        have hp' := List.pairwise_append.1 hp
        exact hp'.2.2 p (by simp) w (List.mem_cons_self _ _) he'.symm
      rw [if_neg hne]
      have hassoc : (w :: p :: ps).reverse ++ ws = (p :: ps).reverse ++ w :: ws := by simp
      rw [ih (w :: p :: ps) hm' (by rw [hassoc]; exact hp), hassoc]

/-- On a dictionary without upper-case letters the normalizer run on its own
output, one text per line in the same order, gives the same word list. -/
theorem wordList_textLines_of_lower (data : List Nat)
    (hlow : ∀ c ∈ data, ¬ (65 ≤ c ∧ c ≤ 90)) :
    wordList (textLines (wordList data)) = wordList data := by
  have hword : ∀ w ∈ wordList data, w.text ∈ splitWords data ∧ wordOf w.text = w := by
    intro w hw
    obtain ⟨line, hl, e, _⟩ := (wordList_mem_iff data w).1 hw
    have ht : (wordOf line).text = line :=
      maskLoop_text_of_lower line (fun c hc => hlow c (splitWords_subset data line hl c hc)) 0
    rw [← e, ht]
    exact ⟨hl, rfl⟩
  have hsplit : splitWords (textLines (wordList data)) = (wordList data).map (fun w => w.text) :=
    splitWords_textLines _ (fun w hw c hc => splitWords_clean data _ (hword w hw).1 c hc)
  have hstrict := wordList_strict_of_lower data hlow
  have hmap : ((wordList data).map (fun w => w.text)).map wordOf = wordList data := by
    rw [List.map_map]
    conv_rhs => rw [← List.map_id (wordList data)]
    apply List.map_congr_left
    intro w hw
    exact (hword w hw).2
  have hnd : (wordList data).Pairwise (fun a b => a.text ≠ b.text) := by
    have := hstrict.2
    unfold List.Nodup at this
    rw [List.pairwise_map] at this
    exact this
  have hout : ∀ d : List Nat,
      wordList d = compactLoop ((qsortWords (splitWords d)).map wordOf) [] := fun _ => rfl
  rw [hout (textLines (wordList data)), hsplit, qsortWords_of_sorted hstrict.1, hmap,
    compactLoop_keeps _ [] (wordList_mask_ne_zero data) (by simpa using hnd)]
  rfl

end Pangram
